import Mathlib

/-!
Verification of the Ollama content-generator adapter (`OllamaContentGenerator`):
the Gemini-to-Ollama message converter, the prompt-based tool-call protocol
(instruction injection, tool-call extraction and validation), the single-shot
and streaming response adapters, the token estimate and the embedding stub.

The development shallowly embeds the TypeScript source.  JSON values are
modelled by an inductive `Json` whose numbers are integers (the adapter never
manipulates numeric payloads, and `JSON.stringify` of the tool-call wrapper
only ever reproduces what the request supplied); JS runtime strings are Lean
`String`s over code points.  `JSON.stringify(v, null, 2)` and `JSON.parse` are
modelled by an executable printer and a fuel-indexed recursive-descent parser,
and the code-fence regular expression and the balanced-brace scan of
`parseToolCall` are modelled character by character.
-/

namespace Chadson

/-! ## JSON values -/

/-- JSON values as produced by `JSON.parse`.  Objects keep their members in
textual order, duplicates included; property access takes the last binding,
as JavaScript does.  Numbers are modelled as integers (see module comment). -/
inductive Json where
  | null : Json
  | bool : Bool → Json
  | num : Int → Json
  | str : String → Json
  | arr : List Json → Json
  | obj : List (String × Json) → Json

/-- JavaScript truthiness of a JSON value (`if (x)`). -/
def jsTruthy : Json → Bool
  | .null => false
  | .bool b => b
  | .num n => n != 0
  | .str s => s ≠ ""
  | .arr _ => true
  | .obj _ => true

/-- Property lookup on a parsed JSON object: the last binding of the key wins,
matching JavaScript semantics for duplicate keys in `JSON.parse`. -/
def lookupLast (k : String) : List (String × Json) → Option Json
  | [] => none
  | (k', v) :: t =>
    match lookupLast k t with
    | some r => some r
    | none => if k' = k then some v else none

/-- JavaScript property access `v[k]` on a JSON value: `none` models
`undefined` (primitives and arrays have no such string property). -/
def jsProp (v : Json) (k : String) : Option Json :=
  match v with
  | .obj m => lookupLast k m
  | _ => none

/-! ## Decimal numerals -/

/-- Big-endian decimal digit characters of `n`, by fuel-indexed recursion
(`fuel ≥ n` suffices); empty for `n = 0`. -/
def natDigitsAux : Nat → Nat → List Char
  | 0, _ => []
  | f + 1, n =>
    if n = 0 then [] else natDigitsAux f (n / 10) ++ [Nat.digitChar (n % 10)]

/-- Decimal numeral of a natural number, as `String(n)` renders it. -/
def natToString (n : Nat) : String :=
  if n = 0 then "0" else String.mk (natDigitsAux (n + 1) n)

/-- Decimal numeral of an integer, as `String(n)` / `JSON.stringify` render it. -/
def intToString (n : Int) : String :=
  if n < 0 then "-" ++ natToString n.natAbs else natToString n.toNat

/-! ## `JSON.stringify(v, null, 2)` -/

/-- Escape one character inside a JSON string literal, as `JSON.stringify`
does for the characters the adapter can meet (quote, backslash and the
common control characters; other characters pass through verbatim). -/
def escChar (c : Char) : List Char :=
  if c = '"' then ['\\', '"']
  else if c = '\\' then ['\\', '\\']
  else if c = '\n' then ['\\', 'n']
  else if c = '\r' then ['\\', 'r']
  else if c = '\t' then ['\\', 't']
  else [c]

/-- A JSON string literal: quotes around the escaped characters. -/
def quoteStr (s : String) : String :=
  "\"" ++ String.mk (List.flatten (s.data.map escChar)) ++ "\""

/-- Indentation of `JSON.stringify(v, null, 2)` at nesting depth `d`. -/
def indentStr (d : Nat) : String :=
  String.mk (List.replicate (2 * d) ' ')

mutual

/-- `JSON.stringify(v, null, 2)` rendered at nesting depth `d`: the exact
text the adapter embeds in conversation history for a function call. -/
def stringify2 (d : Nat) : Json → String
  | .null => "null"
  | .bool true => "true"
  | .bool false => "false"
  | .num n => intToString n
  | .str s => quoteStr s
  | .arr [] => "[]"
  | .arr (x :: xs) =>
    "[\n" ++ stringifyElems d (x :: xs) ++ "\n" ++ indentStr d ++ "]"
  | .obj [] => "\x7b\x7d"
  | .obj (m :: ms) =>
    "\x7b\n" ++ stringifyMembers d (m :: ms) ++ "\n" ++ indentStr d ++ "\x7d"

/-- The comma-and-newline separated element lines of a non-empty array. -/
def stringifyElems (d : Nat) : List Json → String
  | [] => ""
  | [x] => indentStr (d + 1) ++ stringify2 (d + 1) x
  | x :: y :: xs =>
    indentStr (d + 1) ++ stringify2 (d + 1) x ++ ",\n" ++ stringifyElems d (y :: xs)

/-- The comma-and-newline separated member lines of a non-empty object. -/
def stringifyMembers (d : Nat) : List (String × Json) → String
  | [] => ""
  | [(k, v)] => indentStr (d + 1) ++ quoteStr k ++ ": " ++ stringify2 (d + 1) v
  | (k, v) :: m :: ms =>
    indentStr (d + 1) ++ quoteStr k ++ ": " ++ stringify2 (d + 1) v ++ ",\n" ++
      stringifyMembers d (m :: ms)

end

mutual

/-- Compact `JSON.stringify(v)` (no indentation), used for function-response
payloads. -/
def stringifyCompact : Json → String
  | .null => "null"
  | .bool true => "true"
  | .bool false => "false"
  | .num n => intToString n
  | .str s => quoteStr s
  | .arr [] => "[]"
  | .arr (x :: xs) => "[" ++ compactElems (x :: xs) ++ "]"
  | .obj [] => "\x7b\x7d"
  | .obj (m :: ms) => "\x7b" ++ compactMembers (m :: ms) ++ "\x7d"

/-- Comma-separated compact elements. -/
def compactElems : List Json → String
  | [] => ""
  | [x] => stringifyCompact x
  | x :: y :: xs => stringifyCompact x ++ "," ++ compactElems (y :: xs)

/-- Comma-separated compact members. -/
def compactMembers : List (String × Json) → String
  | [] => ""
  | [(k, v)] => quoteStr k ++ ":" ++ stringifyCompact v
  | (k, v) :: m :: ms =>
    quoteStr k ++ ":" ++ stringifyCompact v ++ "," ++ compactMembers (m :: ms)

end

/-! ## `JSON.parse` -/

/-- JSON whitespace (`space`, `tab`, `line feed`, `carriage return`). -/
def isJsonWs (c : Char) : Bool :=
  c = ' ' || c = '\t' || c = '\n' || c = '\r'

/-- Skip insignificant whitespace. -/
def skipWs (l : List Char) : List Char :=
  l.dropWhile isJsonWs

/-- Decode a one-character escape code inside a JSON string literal
(`\uXXXX` is outside the model; no input in this development uses it). -/
def escDecode (c : Char) : Option Char :=
  if c = '"' then some '"'
  else if c = '\\' then some '\\'
  else if c = '/' then some '/'
  else if c = 'n' then some '\n'
  else if c = 'r' then some '\r'
  else if c = 't' then some '\t'
  else if c = 'b' then some '\x08'
  else if c = 'f' then some '\x0c'
  else none

/-- Parse the body of a JSON string literal after its opening quote:
the decoded characters and the input after the closing quote. -/
def parseStrChars : List Char → Option (List Char × List Char)
  | [] => none
  | c :: r =>
    if c = '"' then some ([], r)
    else if c = '\\' then
      match r with
      | [] => none
      | e :: r' =>
        match escDecode e with
        | none => none
        | some ec =>
          match parseStrChars r' with
          | none => none
          | some (cs, rest) => some (ec :: cs, rest)
    else
      match parseStrChars r with
      | none => none
      | some (cs, rest) => some (c :: cs, rest)

/-- Numeric value of a list of decimal digit characters. -/
def natOfDigits (l : List Char) : Nat :=
  l.foldl (fun a c => a * 10 + (c.toNat - 48)) 0

/-- Parse a run of decimal digits: its value and the input after it;
fails on an empty run. -/
def parseNatChars (l : List Char) : Option (Nat × List Char) :=
  let ds := l.takeWhile Char.isDigit
  if ds.isEmpty then none else some (natOfDigits ds, l.drop ds.length)

mutual

/-- Recursive-descent JSON value parser (fuel-indexed; `parseJson` supplies
input length plus one, which always suffices since each nesting level
consumes at least one character first). -/
def parseVal : Nat → List Char → Option (Json × List Char)
  | 0, _ => none
  | f + 1, l =>
    match skipWs l with
    | [] => none
    | c :: r =>
      if c = '\x7b' then
        match skipWs r with
        | '\x7d' :: r' => some (.obj [], r')
        | r1 =>
          match parseMembers f r1 with
          | none => none
          | some (m, rest) => some (.obj m, rest)
      else if c = '[' then
        match skipWs r with
        | ']' :: r' => some (.arr [], r')
        | r1 =>
          match parseElems f r1 with
          | none => none
          | some (xs, rest) => some (.arr xs, rest)
      else if c = '"' then
        match parseStrChars r with
        | none => none
        | some (cs, rest) => some (.str (String.mk cs), rest)
      else if c = 't' then
        if ['r', 'u', 'e'].isPrefixOf r then some (.bool true, r.drop 3) else none
      else if c = 'f' then
        if ['a', 'l', 's', 'e'].isPrefixOf r then some (.bool false, r.drop 4) else none
      else if c = 'n' then
        if ['u', 'l', 'l'].isPrefixOf r then some (.null, r.drop 3) else none
      else if c = '-' then
        match parseNatChars r with
        | none => none
        | some (n, rest) => some (.num (-(n : Int)), rest)
      else if c.isDigit then
        match parseNatChars (c :: r) with
        | none => none
        | some (n, rest) => some (.num (n : Int), rest)
      else none

/-- Parse the members of an object after `\x7b`, positioned at the first
member's opening quote; returns the members and the input after `\x7d`. -/
def parseMembers : Nat → List Char → Option (List (String × Json) × List Char)
  | 0, _ => none
  | f + 1, l =>
    match l with
    | '"' :: r =>
      match parseStrChars r with
      | none => none
      | some (kcs, r1) =>
        match skipWs r1 with
        | ':' :: r2 =>
          match parseVal f r2 with
          | none => none
          | some (v, r3) =>
            match skipWs r3 with
            | ',' :: r4 =>
              match parseMembers f (skipWs r4) with
              | none => none
              | some (m, rest) => some ((String.mk kcs, v) :: m, rest)
            | '\x7d' :: r4 => some ([(String.mk kcs, v)], r4)
            | _ => none
        | _ => none
    | _ => none

/-- Parse the elements of an array after `[`, positioned at the first
element; returns the elements and the input after `]`. -/
def parseElems : Nat → List Char → Option (List Json × List Char)
  | 0, _ => none
  | f + 1, l =>
    match parseVal f l with
    | none => none
    | some (v, r1) =>
      match skipWs r1 with
      | ',' :: r2 =>
        match parseElems f r2 with
        | none => none
        | some (xs, rest) => some (v :: xs, rest)
      | ']' :: r2 => some ([v], r2)
      | _ => none

end

/-- `JSON.parse(s)`: parse one value, allow trailing whitespace only;
`none` models a thrown `SyntaxError`. -/
def parseJson (s : String) : Option Json :=
  match parseVal (s.length + 1) s.data with
  | some (v, rest) => if skipWs rest = [] then some v else none
  | none => none

example : parseJson "\x7b \"a\": [1, -2, \"x\"] \x7d" =
    some (.obj [("a", .arr [.num 1, .num (-2), .str "x"])]) := rfl

example : parseJson "\x7b\"a\": 1" = none := rfl

/-! ## List and string helper lemmas -/

theorem dropWhile_all_append {f : Char → Bool} {p : List Char} (h : ∀ c ∈ p, f c)
    (q : List Char) : List.dropWhile f (p ++ q) = List.dropWhile f q := by
  induction p with
  | nil => rfl
  | cons c t ih => simp [List.dropWhile, h c (by simp), ih (fun x hx => h x (by simp [hx]))]

theorem dropWhile_cons_neg {f : Char → Bool} {c : Char} (h : f c = false) (t : List Char) :
    List.dropWhile f (c :: t) = c :: t := by
  simp [List.dropWhile, h]

theorem takeWhile_all_append {f : Char → Bool} {p : List Char} (h : ∀ c ∈ p, f c)
    {q : List Char} (hq : List.takeWhile f q = []) : List.takeWhile f (p ++ q) = p := by
  induction p with
  | nil => rw [List.nil_append, hq]
  | cons c t ih => simp [List.takeWhile, h c (by simp), ih (fun x hx => h x (by simp [hx]))]

theorem isPrefixOf_self_append (l t : List Char) : l.isPrefixOf (l ++ t) = true := by
  rw [List.isPrefixOf_iff_prefix]
  exact List.prefix_append l t

/-! ## Decimal numeral lemmas -/

theorem digitChar_isDigit {m : Nat} (h : m < 10) : (Nat.digitChar m).isDigit = true := by
  interval_cases m <;> rfl

theorem digitChar_val {m : Nat} (h : m < 10) : (Nat.digitChar m).toNat - 48 = m := by
  interval_cases m <;> rfl

theorem natDigitsAux_all_digit : ∀ f n, ∀ c ∈ natDigitsAux f n, c.isDigit := by
  intro f
  induction f with
  | zero => intro n c hc; simp [natDigitsAux] at hc
  | succ f ih =>
    intro n c hc
    cases n with
    | zero => simp [natDigitsAux] at hc
    | succ k =>
      rw [natDigitsAux, if_neg (Nat.succ_ne_zero k)] at hc
      rcases List.mem_append.mp hc with h | h
      · exact ih _ _ h
      · simp only [List.mem_singleton] at h
        subst h
        exact digitChar_isDigit (Nat.mod_lt _ (by norm_num))

theorem natDigitsAux_ne_nil : ∀ f n, 0 < n → n ≤ f → natDigitsAux f n ≠ [] := by
  intro f
  cases f with
  | zero => intro n h1 h2; omega
  | succ f =>
    intro n h1 _
    cases n with
    | zero => omega
    | succ k => rw [natDigitsAux, if_neg (Nat.succ_ne_zero k)]; simp

theorem foldl_natDigitsAux : ∀ f n a, n ≤ f →
    List.foldl (fun a c => a * 10 + (c.toNat - 48)) a (natDigitsAux f n) =
      a * 10 ^ (natDigitsAux f n).length + n := by
  intro f
  induction f with
  | zero => intro n a h; interval_cases n; simp [natDigitsAux]
  | succ f ih =>
    intro n a h
    cases n with
    | zero => simp [natDigitsAux]
    | succ k =>
      rw [natDigitsAux, if_neg (Nat.succ_ne_zero k), List.foldl_append,
        ih ((k + 1) / 10) a (by omega)]
      have hd : (Nat.digitChar ((k + 1) % 10)).toNat - 48 = (k + 1) % 10 :=
        digitChar_val (Nat.mod_lt _ (by norm_num))
      simp only [List.foldl_cons, List.foldl_nil, List.length_append,
        List.length_singleton, hd]
      rw [pow_succ]
      have := Nat.div_add_mod (k + 1) 10
      ring_nf
      omega

theorem natToString_parse (n : Nat) (rest : List Char)
    (hrest : List.takeWhile Char.isDigit rest = []) :
    parseNatChars ((natToString n).data ++ rest) = some (n, rest) := by
  by_cases h0 : n = 0
  · subst h0
    have hd : (natToString 0).data = ['0'] := rfl
    rw [hd, parseNatChars]
    rw [takeWhile_all_append (by intro c hc; simp at hc; subst hc; rfl) hrest]
    simp [natOfDigits, List.drop_left]
  · have hne : natDigitsAux (n + 1) n ≠ [] := natDigitsAux_ne_nil _ _ (by omega) (by omega)
    have hd : (natToString n).data = natDigitsAux (n + 1) n := by
      simp only [natToString, if_neg h0]
    rw [hd, parseNatChars]
    rw [takeWhile_all_append (natDigitsAux_all_digit _ _) hrest]
    have hval : natOfDigits (natDigitsAux (n + 1) n) = n := by
      have := foldl_natDigitsAux (n + 1) n 0 (by omega)
      simpa [natOfDigits] using this
    simp [List.isEmpty_iff, hne, hval, List.drop_left]

theorem intToString_parse_nonneg (n : Nat) (rest : List Char)
    (hrest : List.takeWhile Char.isDigit rest = []) :
    parseNatChars ((intToString (n : Int)).data ++ rest) = some (n, rest) := by
  have : intToString (n : Int) = natToString n := by
    simp [intToString]
  rw [this]
  exact natToString_parse n rest hrest

/-! ## String literal round trip -/

theorem escChar_cases (c : Char) :
    (escChar c = [c] ∧ c ≠ '"' ∧ c ≠ '\\') ∨
      (∃ e, escChar c = ['\\', e] ∧ escDecode e = some c) := by
  by_cases hq : c = '"'
  · subst hq; right; exact ⟨'"', rfl, rfl⟩
  · by_cases hb : c = '\\'
    · subst hb; right; exact ⟨'\\', rfl, rfl⟩
    · by_cases hn : c = '\n'
      · subst hn; right; exact ⟨'n', rfl, rfl⟩
      · by_cases hr : c = '\r'
        · subst hr; right; exact ⟨'r', rfl, rfl⟩
        · by_cases ht : c = '\t'
          · subst ht; right; exact ⟨'t', rfl, rfl⟩
          · left
            refine ⟨?_, hq, hb⟩
            simp [escChar, hq, hb, hn, hr, ht]

theorem parseStrChars_roundtrip : ∀ (cs : List Char) (rest : List Char),
    parseStrChars (List.flatten (cs.map escChar) ++ '"' :: rest) = some (cs, rest) := by
  intro cs
  induction cs with
  | nil =>
    intro rest
    rw [List.map_nil, List.flatten_nil, List.nil_append, parseStrChars.eq_def]
    simp
  | cons c t ih =>
    intro rest
    rcases escChar_cases c with ⟨he, hq, hb⟩ | ⟨e, he, hdec⟩
    · simp only [List.map_cons, he, List.flatten_cons, List.cons_append, List.nil_append,
        List.append_assoc, List.singleton_append]
      rw [parseStrChars.eq_def]
      simp [hq, hb, ih rest]
    · simp only [List.map_cons, he, List.flatten_cons, List.cons_append, List.nil_append,
        List.append_assoc, List.singleton_append]
      rw [parseStrChars.eq_def]
      have hbq : ('\\' : Char) ≠ '"' := by decide
      simp [hbq, hdec, ih rest]

theorem quoteStr_data (s : String) :
    (quoteStr s).data = '"' :: (List.flatten (s.data.map escChar) ++ ['"']) := by
  simp [quoteStr, String.data_append]

/-! ## Shape lemmas for the pretty printer -/

/-- The printed member lines without the first line's indentation. -/
def memsTail (d : Nat) : List (String × Json) → String
  | [] => ""
  | [(k, v)] => quoteStr k ++ ": " ++ stringify2 (d + 1) v
  | (k, v) :: m :: ms =>
    quoteStr k ++ ": " ++ stringify2 (d + 1) v ++ ",\n" ++ indentStr (d + 1) ++
      memsTail d (m :: ms)

/-- The printed element lines without the first line's indentation. -/
def elemsTail (d : Nat) : List Json → String
  | [] => ""
  | [x] => stringify2 (d + 1) x
  | x :: y :: xs => stringify2 (d + 1) x ++ ",\n" ++ indentStr (d + 1) ++ elemsTail d (y :: xs)

theorem stringifyMembers_eq (d : Nat) : ∀ (k : String) (v : Json) ms,
    stringifyMembers d ((k, v) :: ms) = indentStr (d + 1) ++ memsTail d ((k, v) :: ms) := by
  intro k v ms
  cases ms with
  | nil => rw [stringifyMembers, memsTail]; simp [String.append_assoc]
  | cons m ms' =>
    rw [stringifyMembers, memsTail]
    rw [stringifyMembers_eq d m.1 m.2 ms']
    cases m
    simp [String.append_assoc]

theorem stringifyElems_eq (d : Nat) : ∀ (x : Json) xs,
    stringifyElems d (x :: xs) = indentStr (d + 1) ++ elemsTail d (x :: xs) := by
  intro x xs
  cases xs with
  | nil => rw [stringifyElems, elemsTail]
  | cons y xs' =>
    rw [stringifyElems, elemsTail]
    rw [stringifyElems_eq d y xs']
    simp [String.append_assoc]

theorem indentStr_all_ws : ∀ d, ∀ c ∈ (indentStr d).data, isJsonWs c = true := by
  intro d c hc
  have : (indentStr d).data = List.replicate (2 * d) ' ' := rfl
  rw [this] at hc
  rw [List.eq_of_mem_replicate hc]
  rfl

theorem isDigit_ne {c x : Char} (h : c.isDigit = true) (hx : x.isDigit = false) : c ≠ x :=
  fun he => by rw [he, hx] at h; exact Bool.false_ne_true h

theorem isDigit_not_ws {c : Char} (h : c.isDigit = true) : isJsonWs c = false := by
  have h1 : c ≠ ' ' := isDigit_ne h (by decide)
  have h2 : c ≠ '\t' := isDigit_ne h (by decide)
  have h3 : c ≠ '\n' := isDigit_ne h (by decide)
  have h4 : c ≠ '\r' := isDigit_ne h (by decide)
  simp [isJsonWs, h1, h2, h3, h4]

theorem natToString_head (n : Nat) :
    ∃ c t, (natToString n).data = c :: t ∧ c.isDigit = true := by
  by_cases h0 : n = 0
  · subst h0; exact ⟨'0', [], rfl, rfl⟩
  · have hne : natDigitsAux (n + 1) n ≠ [] := natDigitsAux_ne_nil _ _ (by omega) (by omega)
    have hd : (natToString n).data = natDigitsAux (n + 1) n := by
      simp only [natToString, if_neg h0]
    rcases List.exists_cons_of_ne_nil hne with ⟨c, t, hct⟩
    exact ⟨c, t, by rw [hd, hct],
      natDigitsAux_all_digit _ _ c (by rw [hct]; exact List.mem_cons_self c t)⟩

/-- The first character of a printed JSON value: never whitespace and never
a closing bracket, so whitespace skipping and the close-bracket dispatch in
the parser behave deterministically. -/
theorem stringify2_head (d : Nat) (v : Json) :
    ∃ c t, (stringify2 d v).data = c :: t ∧ isJsonWs c = false ∧ c ≠ ']' := by
  cases v with
  | null => exact ⟨'n', ['u', 'l', 'l'], rfl, by decide, by decide⟩
  | bool b => cases b with
    | true => exact ⟨'t', ['r', 'u', 'e'], rfl, by decide, by decide⟩
    | false => exact ⟨'f', ['a', 'l', 's', 'e'], rfl, by decide, by decide⟩
  | num n =>
    by_cases hs : n < 0
    · refine ⟨'-', (natToString n.natAbs).data, ?_, by decide, by decide⟩
      rw [stringify2, intToString, if_pos hs, String.data_append]
      rfl
    · rcases natToString_head n.toNat with ⟨c, t, hct, hdig⟩
      refine ⟨c, t, ?_, isDigit_not_ws hdig, isDigit_ne hdig (by decide)⟩
      rw [stringify2, intToString, if_neg hs]
      exact hct
  | str s =>
    exact ⟨'"', List.flatten (s.data.map escChar) ++ ['"'], quoteStr_data s, by decide,
      by decide⟩
  | arr xs => cases xs with
    | nil => exact ⟨'[', [']'], rfl, by decide, by decide⟩
    | cons x t =>
      refine ⟨'[', '\n' :: ((stringifyElems d (x :: t)).data ++ '\n' ::
        ((indentStr d).data ++ [']'])), ?_, by decide, by decide⟩
      rw [stringify2]
      simp [String.data_append]
  | obj ms => cases ms with
    | nil => exact ⟨'\x7b', ['\x7d'], rfl, by decide, by decide⟩
    | cons m t =>
      refine ⟨'\x7b', '\n' :: ((stringifyMembers d (m :: t)).data ++ '\n' ::
        ((indentStr d).data ++ ['\x7d'])), ?_, by decide, by decide⟩
      rw [stringify2]
      simp [String.data_append]

/-- A list of characters may open what remains of the input only if its head
is not a decimal digit, so that a preceding numeral stops before it. -/
def headDelim (l : List Char) : Prop :=
  ∀ c t, l = c :: t → c.isDigit = false

theorem headDelim_nil : headDelim [] := by
  intro c t h
  exact absurd h (by simp)

theorem headDelim_cons {c : Char} (h : c.isDigit = false) (t : List Char) :
    headDelim (c :: t) := by
  intro c' t' h'
  cases h'
  exact h

theorem takeWhile_digit_of_headDelim {l : List Char} (h : headDelim l) :
    List.takeWhile Char.isDigit l = [] := by
  cases l with
  | nil => rfl
  | cons c t => simp [List.takeWhile, h c t rfl]

theorem ws_not_digit {c : Char} (h : isJsonWs c = true) : c.isDigit = false := by
  have := isDigit_not_ws (c := c)
  cases hd : c.isDigit with
  | false => rfl
  | true => rw [this hd] at h; exact absurd h (by decide)

theorem skipWs_reduce {ws l : List Char} (hws : ∀ c ∈ ws, isJsonWs c = true)
    {c : Char} {t : List Char} (hl : l = c :: t) (hc : isJsonWs c = false) :
    skipWs (ws ++ l) = c :: t := by
  rw [skipWs, dropWhile_all_append hws, hl, dropWhile_cons_neg hc]

/-! ## The parser reads back what the printer wrote -/

theorem parseVal_print_null (g d : Nat) (ws rest : List Char)
    (hws : ∀ c ∈ ws, isJsonWs c = true) :
    parseVal (g + 1) (ws ++ (stringify2 d .null).data ++ rest) = some (.null, rest) := by
  rw [stringify2, List.append_assoc]
  have hc : ("null").data ++ rest = 'n' :: ('u' :: 'l' :: 'l' :: rest) := rfl
  rw [hc]
  have h1 : skipWs (ws ++ 'n' :: ('u' :: 'l' :: 'l' :: rest)) =
      'n' :: ('u' :: 'l' :: 'l' :: rest) := skipWs_reduce hws rfl (by decide)
  rw [parseVal.eq_def]
  simp only [h1]
  have hp : List.isPrefixOf ['u', 'l', 'l'] ('u' :: 'l' :: 'l' :: rest) = true :=
    isPrefixOf_self_append ['u', 'l', 'l'] rest
  simp [hp, List.drop]

theorem parseVal_print_bool (g d : Nat) (b : Bool) (ws rest : List Char)
    (hws : ∀ c ∈ ws, isJsonWs c = true) :
    parseVal (g + 1) (ws ++ (stringify2 d (.bool b)).data ++ rest) = some (.bool b, rest) := by
  cases b with
  | true =>
    rw [stringify2, List.append_assoc]
    have hc : ("true").data ++ rest = 't' :: ('r' :: 'u' :: 'e' :: rest) := rfl
    rw [hc]
    have h1 : skipWs (ws ++ 't' :: ('r' :: 'u' :: 'e' :: rest)) =
        't' :: ('r' :: 'u' :: 'e' :: rest) := skipWs_reduce hws rfl (by decide)
    rw [parseVal.eq_def]
    simp only [h1]
    have hp : List.isPrefixOf ['r', 'u', 'e'] ('r' :: 'u' :: 'e' :: rest) = true :=
      isPrefixOf_self_append ['r', 'u', 'e'] rest
    simp [hp, List.drop]
  | false =>
    rw [stringify2, List.append_assoc]
    have hc : ("false").data ++ rest = 'f' :: ('a' :: 'l' :: 's' :: 'e' :: rest) := rfl
    rw [hc]
    have h1 : skipWs (ws ++ 'f' :: ('a' :: 'l' :: 's' :: 'e' :: rest)) =
        'f' :: ('a' :: 'l' :: 's' :: 'e' :: rest) := skipWs_reduce hws rfl (by decide)
    rw [parseVal.eq_def]
    simp only [h1]
    have hp : List.isPrefixOf ['a', 'l', 's', 'e'] ('a' :: 'l' :: 's' :: 'e' :: rest) = true :=
      isPrefixOf_self_append ['a', 'l', 's', 'e'] rest
    simp [hp, List.drop]

theorem parseVal_print_num (g d : Nat) (n : Int) (ws rest : List Char)
    (hws : ∀ c ∈ ws, isJsonWs c = true) (hrest : headDelim rest) :
    parseVal (g + 1) (ws ++ (stringify2 d (.num n)).data ++ rest) = some (.num n, rest) := by
  have htw := takeWhile_digit_of_headDelim hrest
  rw [stringify2, List.append_assoc]
  by_cases hs : n < 0
  · have hl : (intToString n).data ++ rest =
        '-' :: ((natToString n.natAbs).data ++ rest) := by
      rw [intToString, if_pos hs]
      simp [String.data_append]
    have h1 := skipWs_reduce hws hl (by decide)
    rw [parseVal.eq_def]
    simp only [h1]
    rw [natToString_parse n.natAbs rest htw]
    have hn : (-(n.natAbs : Int)) = n := by omega
    show some (Json.num (-(n.natAbs : Int)), rest) = some (Json.num n, rest)
    rw [hn]
  · rcases natToString_head n.toNat with ⟨c, t, hct, hdig⟩
    have hl : (intToString n).data ++ rest = c :: (t ++ rest) := by
      rw [intToString, if_neg hs, hct]
      rfl
    have h1 := skipWs_reduce hws hl (isDigit_not_ws hdig)
    have hcr : c :: (t ++ rest) = (natToString n.toNat).data ++ rest := by rw [hct]; rfl
    rw [parseVal.eq_def]
    simp only [h1]
    rw [if_neg (isDigit_ne hdig (by decide)), if_neg (isDigit_ne hdig (by decide)),
      if_neg (isDigit_ne hdig (by decide)), if_neg (isDigit_ne hdig (by decide)),
      if_neg (isDigit_ne hdig (by decide)), if_neg (isDigit_ne hdig (by decide)),
      if_neg (isDigit_ne hdig (by decide)), if_pos hdig, hcr,
      natToString_parse n.toNat rest htw]
    have hn : ((n.toNat : Int)) = n := by omega
    show some (Json.num ((n.toNat : Int)), rest) = some (Json.num n, rest)
    rw [hn]

theorem parseVal_print_str (g d : Nat) (s : String) (ws rest : List Char)
    (hws : ∀ c ∈ ws, isJsonWs c = true) :
    parseVal (g + 1) (ws ++ (stringify2 d (.str s)).data ++ rest) = some (.str s, rest) := by
  rw [stringify2, List.append_assoc]
  have hl : (quoteStr s).data ++ rest =
      '"' :: (List.flatten (s.data.map escChar) ++ '"' :: rest) := by
    rw [quoteStr_data]
    simp
  have h1 := skipWs_reduce hws hl (by decide)
  rw [parseVal.eq_def]
  simp [h1, parseStrChars_roundtrip]

theorem append_head {s : String} {c : Char} {t : List Char} (h : s.data = c :: t)
    (x : String) : (s ++ x).data = c :: (t ++ x.data) := by
  rw [String.data_append, h]
  rfl

theorem memsTail_head (d : Nat) (k : String) (v : Json) (ms : List (String × Json)) :
    ∃ t2, (memsTail d ((k, v) :: ms)).data = '"' :: t2 := by
  have h1 := quoteStr_data k
  cases ms with
  | nil =>
    rw [memsTail]
    exact ⟨_, append_head (append_head h1 ": ") (stringify2 (d + 1) v)⟩
  | cons m t =>
    rw [memsTail]
    exact ⟨_, append_head (append_head (append_head (append_head (append_head h1 ": ")
      (stringify2 (d + 1) v)) ",\n") (indentStr (d + 1))) (memsTail d (m :: t))⟩

theorem elemsTail_head (d : Nat) (x : Json) (xs : List Json) :
    ∃ c t2, (elemsTail d (x :: xs)).data = c :: t2 ∧ isJsonWs c = false ∧ c ≠ ']' := by
  rcases stringify2_head (d + 1) x with ⟨c, t, hct, hws, hne⟩
  cases xs with
  | nil => exact ⟨c, t, by rw [elemsTail]; exact hct, hws, hne⟩
  | cons y ys =>
    rw [elemsTail]
    exact ⟨c, _, append_head (append_head (append_head hct ",\n") (indentStr (d + 1)))
      (elemsTail d (y :: ys)), hws, hne⟩

theorem headDelim_ws {ws2 : List Char} (h : ∀ c ∈ ws2, isJsonWs c = true)
    {c0 : Char} (hc : c0.isDigit = false) (rest : List Char) :
    headDelim (ws2 ++ c0 :: rest) := by
  cases ws2 with
  | nil => exact headDelim_cons hc rest
  | cons a t => exact headDelim_cons (ws_not_digit (h a (by simp))) _
theorem parse_print_main : ∀ f : Nat,
    (∀ (v : Json) (d : Nat) (ws rest : List Char),
        (∀ c ∈ ws, isJsonWs c = true) → headDelim rest →
        (ws ++ (stringify2 d v).data ++ rest).length ≤ f →
        parseVal f (ws ++ (stringify2 d v).data ++ rest) = some (v, rest)) ∧
    (∀ (k : String) (v : Json) (ms : List (String × Json)) (d : Nat) (ws2 rest : List Char),
        (∀ c ∈ ws2, isJsonWs c = true) →
        ((memsTail d ((k, v) :: ms)).data ++ ws2 ++ '\x7d' :: rest).length + 1 ≤ f →
        parseMembers f ((memsTail d ((k, v) :: ms)).data ++ ws2 ++ '\x7d' :: rest) =
          some ((k, v) :: ms, rest)) ∧
    (∀ (x : Json) (xs : List Json) (d : Nat) (ws0 ws2 rest : List Char),
        (∀ c ∈ ws0, isJsonWs c = true) → (∀ c ∈ ws2, isJsonWs c = true) →
        (ws0 ++ (elemsTail d (x :: xs)).data ++ ws2 ++ ']' :: rest).length + 1 ≤ f →
        parseElems f (ws0 ++ (elemsTail d (x :: xs)).data ++ ws2 ++ ']' :: rest) =
          some (x :: xs, rest)) := by
  intro f
  induction f with
  | zero =>
    refine ⟨?_, ?_, ?_⟩
    · intro v d ws rest _ _ hlen
      rcases stringify2_head d v with ⟨c, t, hct, _, _⟩
      simp [List.length_append, hct] at hlen
    · intro k v ms d ws2 rest _ hlen
      omega
    · intro x xs d ws0 ws2 rest _ _ hlen
      omega
  | succ g ih =>
    obtain ⟨ihv, ihm, ihe⟩ := ih
    refine ⟨?_, ?_, ?_⟩
    · -- parseVal
      intro v d ws rest hws hrest hlen
      cases v with
      | null => exact parseVal_print_null g d ws rest hws
      | bool b => exact parseVal_print_bool g d b ws rest hws
      | num n => exact parseVal_print_num g d n ws rest hws hrest
      | str s => exact parseVal_print_str g d s ws rest hws
      | arr xs =>
        cases xs with
        | nil =>
          rw [stringify2, List.append_assoc]
          have hc : ("[]").data ++ rest = '[' :: (']' :: rest) := rfl
          rw [hc]
          have h1 : skipWs (ws ++ '[' :: (']' :: rest)) = '[' :: (']' :: rest) :=
            skipWs_reduce hws rfl (by decide)
          rw [parseVal.eq_def]
          simp only [h1]
          have h2 : skipWs (']' :: rest) = ']' :: rest := by
            rw [skipWs]
            exact dropWhile_cons_neg (by decide) rest
          simp [h2]
        | cons x xs' =>
          rw [stringify2, stringifyElems_eq] at hlen ⊢
          have hIN : ("[\n" ++ (indentStr (d + 1) ++ elemsTail d (x :: xs')) ++ "\n" ++
              indentStr d ++ "]").data ++ rest =
              '[' :: '\n' :: ((indentStr (d + 1)).data ++ ((elemsTail d (x :: xs')).data ++
                ('\n' :: ((indentStr d).data ++ (']' :: rest))))) := by
            simp [String.data_append]
          rw [List.append_assoc, hIN]
          have h1 : skipWs (ws ++ '[' :: '\n' :: ((indentStr (d + 1)).data ++
              ((elemsTail d (x :: xs')).data ++ ('\n' :: ((indentStr d).data ++
                (']' :: rest)))))) = '[' :: '\n' :: ((indentStr (d + 1)).data ++
              ((elemsTail d (x :: xs')).data ++ ('\n' :: ((indentStr d).data ++
                (']' :: rest))))) := skipWs_reduce hws rfl (by decide)
          rcases elemsTail_head d x xs' with ⟨c0, t0, hE, hc0ws, hc0ne⟩
          have hws' : ∀ c ∈ ('\n' :: (indentStr (d + 1)).data), isJsonWs c = true := by
            intro c hc
            rcases List.mem_cons.mp hc with h | h
            · rw [h]; rfl
            · exact indentStr_all_ws _ c h
          have h2 : skipWs ('\n' :: ((indentStr (d + 1)).data ++
              ((elemsTail d (x :: xs')).data ++ ('\n' :: ((indentStr d).data ++
                (']' :: rest)))))) = (elemsTail d (x :: xs')).data ++
              ('\n' :: ((indentStr d).data ++ (']' :: rest))) := by
            have hre : '\n' :: ((indentStr (d + 1)).data ++
                ((elemsTail d (x :: xs')).data ++ ('\n' :: ((indentStr d).data ++
                  (']' :: rest))))) = ('\n' :: (indentStr (d + 1)).data) ++
                ((elemsTail d (x :: xs')).data ++ ('\n' :: ((indentStr d).data ++
                  (']' :: rest)))) := rfl
            rw [hre, skipWs, dropWhile_all_append hws', hE, List.cons_append,
              dropWhile_cons_neg hc0ws, ← List.cons_append, ← hE]
          have hws0' : ∀ c ∈ ('\n' :: (indentStr d).data), isJsonWs c = true := by
            intro c hc
            rcases List.mem_cons.mp hc with h | h
            · rw [h]; rfl
            · exact indentStr_all_ws _ c h
          have he := ihe x xs' d [] ('\n' :: (indentStr d).data) rest (by simp) hws0'
            (by
              simp [List.length_append, String.length_append] at hlen ⊢
              omega)
          simp only [List.nil_append, List.cons_append, List.append_assoc] at he
          rw [parseVal.eq_def]
          simp only [h1]
          rw [if_neg (by decide : ¬ ('[' = '\x7b')), if_pos trivial, h2, hE,
            List.cons_append]
          split
          · rename_i r' heq
            rw [List.cons.injEq] at heq
            exact absurd heq.1 hc0ne
          · rw [← List.cons_append, ← hE, he]
      | obj ms =>
        cases ms with
        | nil =>
          rw [stringify2, List.append_assoc]
          have hc : ("\x7b\x7d").data ++ rest = '\x7b' :: ('\x7d' :: rest) := rfl
          rw [hc]
          have h1 : skipWs (ws ++ '\x7b' :: ('\x7d' :: rest)) = '\x7b' :: ('\x7d' :: rest) :=
            skipWs_reduce hws rfl (by decide)
          rw [parseVal.eq_def]
          simp only [h1]
          have h2 : skipWs ('\x7d' :: rest) = '\x7d' :: rest := by
            rw [skipWs]
            exact dropWhile_cons_neg (by decide) rest
          simp [h2]
        | cons m ms' =>
          obtain ⟨k0, v0⟩ := m
          rw [stringify2, stringifyMembers_eq] at hlen ⊢
          have hIN : ("\x7b\n" ++ (indentStr (d + 1) ++ memsTail d ((k0, v0) :: ms')) ++ "\n" ++
              indentStr d ++ "\x7d").data ++ rest =
              '\x7b' :: '\n' :: ((indentStr (d + 1)).data ++ ((memsTail d ((k0, v0) :: ms')).data ++
                ('\n' :: ((indentStr d).data ++ ('\x7d' :: rest))))) := by
            simp [String.data_append]
          rw [List.append_assoc, hIN]
          have h1 : skipWs (ws ++ '\x7b' :: '\n' :: ((indentStr (d + 1)).data ++
              ((memsTail d ((k0, v0) :: ms')).data ++ ('\n' :: ((indentStr d).data ++
                ('\x7d' :: rest)))))) = '\x7b' :: '\n' :: ((indentStr (d + 1)).data ++
              ((memsTail d ((k0, v0) :: ms')).data ++ ('\n' :: ((indentStr d).data ++
                ('\x7d' :: rest))))) := skipWs_reduce hws rfl (by decide)
          rcases memsTail_head d k0 v0 ms' with ⟨tm, htm⟩
          have hws' : ∀ c ∈ ('\n' :: (indentStr (d + 1)).data), isJsonWs c = true := by
            intro c hc
            rcases List.mem_cons.mp hc with h | h
            · rw [h]; rfl
            · exact indentStr_all_ws _ c h
          have h2 : skipWs ('\n' :: ((indentStr (d + 1)).data ++
              ((memsTail d ((k0, v0) :: ms')).data ++ ('\n' :: ((indentStr d).data ++
                ('\x7d' :: rest)))))) = (memsTail d ((k0, v0) :: ms')).data ++
              ('\n' :: ((indentStr d).data ++ ('\x7d' :: rest))) := by
            have hre : '\n' :: ((indentStr (d + 1)).data ++
                ((memsTail d ((k0, v0) :: ms')).data ++ ('\n' :: ((indentStr d).data ++
                  ('\x7d' :: rest))))) = ('\n' :: (indentStr (d + 1)).data) ++
                ((memsTail d ((k0, v0) :: ms')).data ++ ('\n' :: ((indentStr d).data ++
                  ('\x7d' :: rest)))) := rfl
            rw [hre, skipWs, dropWhile_all_append hws', htm, List.cons_append,
              dropWhile_cons_neg (show isJsonWs '"' = false by decide),
              ← List.cons_append, ← htm]
          have hws0' : ∀ c ∈ ('\n' :: (indentStr d).data), isJsonWs c = true := by
            intro c hc
            rcases List.mem_cons.mp hc with h | h
            · rw [h]; rfl
            · exact indentStr_all_ws _ c h
          have hm := ihm k0 v0 ms' d ('\n' :: (indentStr d).data) rest hws0'
            (by
              simp [List.length_append, String.length_append] at hlen ⊢
              omega)
          simp only [List.cons_append, List.append_assoc] at hm
          rw [parseVal.eq_def]
          simp only [h1]
          rw [if_pos trivial, h2, htm, List.cons_append]
          split
          · rename_i r' heq
            rw [List.cons.injEq] at heq
            exact absurd heq.1 (by decide)
          · rw [← List.cons_append, ← htm, hm]
    · -- parseMembers
      intro k v ms d ws2 rest hws2 hlen
      have hk : String.mk k.data = k := rfl
      have hDm : headDelim (ws2 ++ '\x7d' :: rest) := headDelim_ws hws2 (by decide) rest
      cases ms with
      | nil =>
        rw [memsTail] at hlen ⊢
        have hIN : (quoteStr k ++ ": " ++ stringify2 (d + 1) v).data ++ (ws2 ++ '\x7d' :: rest) =
            '"' :: ((List.flatten (k.data.map escChar)) ++ '"' :: (':' :: ' ' ::
              ((stringify2 (d + 1) v).data ++ (ws2 ++ '\x7d' :: rest)))) := by
          simp [String.data_append, quoteStr_data]
        have h2 : skipWs (':' :: ' ' :: ((stringify2 (d + 1) v).data ++
            (ws2 ++ '\x7d' :: rest))) = ':' :: ' ' :: ((stringify2 (d + 1) v).data ++
            (ws2 ++ '\x7d' :: rest)) := by
          rw [skipWs]
          exact dropWhile_cons_neg (by decide) _
        have hv := ihv v (d + 1) [' '] (ws2 ++ '\x7d' :: rest) (by decide) hDm
          (by
            simp [List.length_append, String.length_append] at hlen ⊢
            omega)
        simp only [List.singleton_append, List.append_assoc, List.cons_append,
          List.nil_append] at hv
        have h3 : skipWs (ws2 ++ '\x7d' :: rest) = '\x7d' :: rest :=
          skipWs_reduce hws2 rfl (by decide)
        simp only [List.append_assoc]
        rw [hIN, parseMembers.eq_def]
        simp [parseStrChars_roundtrip, h2, hv, h3, hk]
      | cons m' ms'' =>
        obtain ⟨k2, v2⟩ := m'
        rw [memsTail] at hlen ⊢
        have hIN : (quoteStr k ++ ": " ++ stringify2 (d + 1) v ++ ",\n" ++ indentStr (d + 1) ++
            memsTail d ((k2, v2) :: ms'')).data ++ (ws2 ++ '\x7d' :: rest) =
            '"' :: ((List.flatten (k.data.map escChar)) ++ '"' :: (':' :: ' ' ::
              ((stringify2 (d + 1) v).data ++ (',' :: '\n' :: ((indentStr (d + 1)).data ++
                ((memsTail d ((k2, v2) :: ms'')).data ++ (ws2 ++ '\x7d' :: rest))))))) := by
          simp [String.data_append, quoteStr_data]
        have h2 : skipWs (':' :: ' ' :: ((stringify2 (d + 1) v).data ++
            (',' :: '\n' :: ((indentStr (d + 1)).data ++
              ((memsTail d ((k2, v2) :: ms'')).data ++ (ws2 ++ '\x7d' :: rest)))))) =
            ':' :: ' ' :: ((stringify2 (d + 1) v).data ++
            (',' :: '\n' :: ((indentStr (d + 1)).data ++
              ((memsTail d ((k2, v2) :: ms'')).data ++ (ws2 ++ '\x7d' :: rest))))) := by
          rw [skipWs]
          exact dropWhile_cons_neg (by decide) _
        have hv := ihv v (d + 1) [' '] (',' :: '\n' :: ((indentStr (d + 1)).data ++
            ((memsTail d ((k2, v2) :: ms'')).data ++ (ws2 ++ '\x7d' :: rest))))
          (by decide) (headDelim_cons (by decide) _)
          (by
            simp [List.length_append, String.length_append] at hlen ⊢
            omega)
        simp only [List.singleton_append, List.append_assoc, List.cons_append,
          List.nil_append] at hv
        have h3 : skipWs (',' :: '\n' :: ((indentStr (d + 1)).data ++
            ((memsTail d ((k2, v2) :: ms'')).data ++ (ws2 ++ '\x7d' :: rest)))) =
            ',' :: '\n' :: ((indentStr (d + 1)).data ++
            ((memsTail d ((k2, v2) :: ms'')).data ++ (ws2 ++ '\x7d' :: rest))) := by
          rw [skipWs]
          exact dropWhile_cons_neg (by decide) _
        rcases memsTail_head d k2 v2 ms'' with ⟨tm, htm⟩
        have h4 : skipWs ('\n' :: ((indentStr (d + 1)).data ++
            ((memsTail d ((k2, v2) :: ms'')).data ++ (ws2 ++ '\x7d' :: rest)))) =
            (memsTail d ((k2, v2) :: ms'')).data ++ (ws2 ++ '\x7d' :: rest) := by
          have hre : ('\n' :: ((indentStr (d + 1)).data ++
              ((memsTail d ((k2, v2) :: ms'')).data ++ (ws2 ++ '\x7d' :: rest)))) =
              ('\n' :: (indentStr (d + 1)).data) ++
              ((memsTail d ((k2, v2) :: ms'')).data ++ (ws2 ++ '\x7d' :: rest)) := rfl
          have hws' : ∀ c ∈ ('\n' :: (indentStr (d + 1)).data), isJsonWs c = true := by
            intro c hc
            rcases List.mem_cons.mp hc with h | h
            · rw [h]; rfl
            · exact indentStr_all_ws _ c h
          rw [hre, skipWs, dropWhile_all_append hws', htm, List.cons_append,
            dropWhile_cons_neg (show isJsonWs '"' = false by decide),
            ← List.cons_append, ← htm]
        have hm := ihm k2 v2 ms'' d ws2 rest hws2
          (by
            simp [List.length_append, String.length_append] at hlen ⊢
            omega)
        simp only [List.append_assoc] at hm
        simp only [List.append_assoc]
        rw [hIN, parseMembers.eq_def]
        simp [parseStrChars_roundtrip, h2, hv, h3, h4, hm, hk]
    · -- parseElems
      intro x xs d ws0 ws2 rest hws0 hws2 hlen
      have hD : headDelim (ws2 ++ ']' :: rest) := headDelim_ws hws2 (by decide) rest
      cases xs with
      | nil =>
        rw [elemsTail] at hlen
        rw [elemsTail, parseElems.eq_def]
        have hv := ihv x (d + 1) ws0 (ws2 ++ ']' :: rest) hws0 hD
          (by simp [List.length_append] at hlen ⊢; omega)
        simp only [List.append_assoc] at hv ⊢
        rw [hv]
        have h2 : skipWs (ws2 ++ ']' :: rest) = ']' :: rest :=
          skipWs_reduce hws2 rfl (by decide)
        simp [h2]
      | cons y xs' =>
        rw [elemsTail] at hlen
        rw [elemsTail, parseElems.eq_def]
        -- input: ws0 ++ (V ++ ",\n" ++ ind1 ++ E').data ++ ws2 ++ ']' :: rest
        have hsplit : (stringify2 (d + 1) x ++ ",\n" ++ indentStr (d + 1) ++
            elemsTail d (y :: xs')).data ++ (ws2 ++ ']' :: rest) =
            (stringify2 (d + 1) x).data ++ (',' :: '\n' :: ((indentStr (d + 1)).data ++
              ((elemsTail d (y :: xs')).data ++ (ws2 ++ ']' :: rest)))) := by
          simp [String.data_append]
        simp only [List.append_assoc]
        rw [hsplit]
        have hv := ihv x (d + 1) ws0 (',' :: '\n' :: ((indentStr (d + 1)).data ++
            ((elemsTail d (y :: xs')).data ++ (ws2 ++ ']' :: rest)))) hws0
          (headDelim_cons (by decide) _)
          (by
            simp [List.length_append, String.length_append] at hlen ⊢
            omega)
        simp only [List.append_assoc] at hv
        rw [hv]
        dsimp only
        have h2 : skipWs (',' :: '\n' :: ((indentStr (d + 1)).data ++
            ((elemsTail d (y :: xs')).data ++ (ws2 ++ ']' :: rest)))) = ',' :: '\n' ::
            ((indentStr (d + 1)).data ++ ((elemsTail d (y :: xs')).data ++
              (ws2 ++ ']' :: rest))) := by
          rw [skipWs]
          exact dropWhile_cons_neg (by decide) _
        rw [h2]
        have he := ihe y xs' d ('\n' :: (indentStr (d + 1)).data) ws2 rest
          (by
            intro c hc
            rcases List.mem_cons.mp hc with h | h
            · rw [h]; rfl
            · exact indentStr_all_ws _ c h)
          hws2
          (by
            simp [List.length_append, String.length_append] at hlen ⊢
            omega)
        have heq : ('\n' :: (indentStr (d + 1)).data) ++
            ((elemsTail d (y :: xs')).data ++ (ws2 ++ ']' :: rest)) = '\n' ::
            ((indentStr (d + 1)).data ++ ((elemsTail d (y :: xs')).data ++
              (ws2 ++ ']' :: rest))) := rfl
        simp only [List.append_assoc] at he
        rw [heq] at he
        simp [he]



/-- `JSON.parse` reads back exactly what `JSON.stringify(v, null, 2)` wrote. -/
theorem parseJson_stringify2 (d : Nat) (v : Json) : parseJson (stringify2 d v) = some v := by
  have h := (parse_print_main ((stringify2 d v).length + 1)).1 v d [] []
    (by simp) headDelim_nil
    (by
      simp only [List.nil_append, List.append_nil]
      exact Nat.le_succ _)
  simp only [List.nil_append, List.append_nil] at h
  rw [parseJson, h]
  rfl

/-! ## Tool-call extraction (`parseToolCall`, source lines 284-385)

The extraction follows the source: first the code-fence regular expression
/``` (?:json)? \s* (\x7b [\s\S]*? \x7d) \s* ``` / (spaces added here for
readability), then the `"tool_call"`-anchored balanced-brace scan.  The
regular expression is deterministic on every input: the optional `json`
branch and the greedy whitespace runs can never backtrack productively,
because a backtracked position would have to start with a character the
next literal cannot match, and the lazy middle takes the shortest span whose
closing brace is followed by whitespace and a closing fence. -/

/-- JavaScript regular-expression whitespace `\s` (ASCII range). -/
def isJsWs (c : Char) : Bool :=
  c = ' ' || c = '\t' || c = '\n' || c = '\r' || c = '\x0b' || c = '\x0c'

/-- After the candidate closing brace: optional whitespace, then a fence. -/
def fenceClose (l : List Char) : Bool :=
  ['`', '`', '`'].isPrefixOf (l.dropWhile isJsWs)

/-- Lazy scan for the shortest middle whose closing `\x7d` is followed by a
closing fence; `acc` holds the capture so far (starting at `\x7b`). -/
def scanCloseBrace (acc : List Char) : List Char → Option (List Char)
  | [] => none
  | c :: r =>
    if c = '\x7d' && fenceClose r then some (acc ++ [c])
    else scanCloseBrace (acc ++ [c]) r

/-- Match the fence pattern anchored at the start of `l`: the capture group
(a brace-delimited span) or `none`. -/
def matchFenceAt (l : List Char) : Option (List Char) :=
  if ['`', '`', '`'].isPrefixOf l then
    let l1 := l.drop 3
    let l2 := if ['j', 's', 'o', 'n'].isPrefixOf l1 then l1.drop 4 else l1
    match l2.dropWhile isJsWs with
    | '\x7b' :: r => scanCloseBrace ['\x7b'] r
    | _ => none
  else none

/-- Leftmost match of the code-fence regular expression: try every start
position from the left, as the JavaScript engine does. -/
def findCodeBlock : List Char → Option (List Char)
  | [] => none
  | c :: t =>
    match matchFenceAt (c :: t) with
    | some cap => some cap
    | none => findCodeBlock t

/-- `String.prototype.indexOf` for a character-list pattern: the first
index at which `pat` occurs in the list. -/
def indexOfSub (pat : List Char) : List Char → Option Nat
  | [] => if List.isPrefixOf pat [] then some 0 else none
  | c :: t =>
    if List.isPrefixOf pat (c :: t) then some 0
    else (indexOfSub pat t).map (· + 1)

/-- `text.lastIndexOf('\x7b', i)`: the largest index `j ≤ i` holding an
opening brace. -/
def lastIndexOfBrace (l : List Char) (i : Nat) : Option Nat :=
  ((l.take (i + 1)).reverse.findIdx? (fun c => c = '\x7b')).map
    (fun k => (l.take (i + 1)).length - 1 - k)

/-- The balanced-brace scan of the source: starting at an opening brace,
count raw brace characters (string literals are not interpreted) and take
the span up to the brace that returns the count to zero; `none` when the
input ends first, matching the source's `braceCount === 0` guard. -/
def spanGo (depth : Nat) (acc : List Char) : List Char → Option (List Char)
  | [] => none
  | c :: r =>
    if c = '\x7b' then spanGo (depth + 1) (acc ++ [c]) r
    else if c = '\x7d' then
      if depth = 1 then some (acc ++ [c]) else spanGo (depth - 1) (acc ++ [c]) r
    else spanGo depth (acc ++ [c]) r

/-- The balanced-brace span of a list starting at its opening brace. -/
def braceSpan (l : List Char) : Option (List Char) :=
  spanGo 0 [] l

/-- The JSON text `parseToolCall` extracts from raw model output: the fenced
block's capture if the regular expression matches, else the
`"tool_call"`-anchored balanced-brace span, else nothing. -/
def extractJsonText (text : String) : Option String :=
  match findCodeBlock text.data with
  | some cap => some (String.mk cap)
  | none =>
    match indexOfSub ("\"tool_call\"").data text.data with
    | none => none
    | some i =>
      match lastIndexOfBrace text.data i with
      | none => none
      | some j =>
        match braceSpan (text.data.drop j) with
        | none => none
        | some span => some (String.mk span)

/-! ## Tools and tool-call validation -/

/-- A property of a tool's JSON-Schema parameter spec. -/
structure ParamSchema where
  type : Option String
  description : Option String

/-- A tool's JSON-Schema-like parameter spec (`properties`, `required`). -/
structure Schema where
  properties : Option (List (String × ParamSchema))
  required : Option (List String)

/-- A function declaration of the Gemini tool format; every field is
optional, as in the TypeScript type. -/
structure FunctionDeclaration where
  name : Option String
  description : Option String
  parameters : Option Schema

/-- A declared tool: `none` models a `Tool` value without the
`functionDeclarations` key (e.g. a retrieval tool). -/
structure Tool where
  functionDeclarations : Option (List FunctionDeclaration)

/-- An extracted tool call.  `name` is kept as a JSON value because the
parsed `tool_call.name` field of untyped model output need not be a string;
validation only ever accepts string names. -/
structure FunctionCall where
  name : Json
  args : Json

/-- The unvalidated stage of `parseToolCall`: extract a JSON span, parse it,
and require a truthy `tool_call` object with a truthy `name`; `arguments`
defaults to the empty object when absent or falsy. -/
def rawToolCall (text : String) : Option FunctionCall :=
  match extractJsonText text with
  | none => none
  | some jsonText =>
    match parseJson jsonText with
    | none => none
    | some parsed =>
      match jsProp parsed "tool_call" with
      | none => none
      | some tc =>
        if jsTruthy tc then
          match jsProp tc "name" with
          | none => none
          | some nm =>
            if jsTruthy nm then
              some ⟨nm,
                match jsProp tc "arguments" with
                | some a => if jsTruthy a then a else Json.obj []
                | none => Json.obj []⟩
            else none
        else none

/-- The validation step of `parseToolCall`: with a non-empty tool list whose
first tool has function declarations, the extracted name must be a string
equal to one of the declared names (`===` comparison); otherwise validation
is skipped, as in the source. -/
def nameAllowed (availableTools : Option (List Tool)) (nm : Json) : Bool :=
  match availableTools with
  | none => true
  | some [] => true
  | some (t :: _) =>
    match t.functionDeclarations with
    | none => true
    | some fds =>
      match nm with
      | .str s => (fds.map (·.name)).contains (some s)
      | _ => false

/-- `parseToolCall` (source lines 284-385): extraction, JSON parsing, the
`tool_call.name` requirement, then validation against the declared tools. -/
def parseToolCall (text : String) (availableTools : Option (List Tool)) :
    Option FunctionCall :=
  match rawToolCall text with
  | none => none
  | some fc => if nameAllowed availableTools fc.name then some fc else none

/-! ## Parts, contents and the message converter -/

/-- Generic conversation roles of the data model (the source maps the
string role `"model"` to `"assistant"` and passes `"user"` through). -/
inductive GenRole where
  | user : GenRole
  | model : GenRole
deriving DecidableEq

/-- One part of a turn; exactly one variant is populated, following the
data model of the request format. -/
inductive Part where
  | text : String → Part
  | functionCall : FunctionCall → Part
  | functionResponse : (name : String) → (response : Json) → Part
  | inlineData : (mimeType : String) → Part
  | fileData : (fileUri : String) → Part

/-- One turn: a role and its parts. -/
structure Content where
  role : GenRole
  parts : List Part

mutual

/-- JavaScript `String(v)` coercion for the JSON values the renderer can
meet (objects render as `[object Object]`, arrays join their elements). -/
def jsToString : Json → String
  | .null => "null"
  | .bool true => "true"
  | .bool false => "false"
  | .num n => intToString n
  | .str s => s
  | .arr xs => jsArrString xs
  | .obj _ => "[object Object]"

/-- `Array.prototype.join(',')` with JavaScript coercion (null elements
render empty). -/
def jsArrString : List Json → String
  | [] => ""
  | [x] => jsElemString x
  | x :: y :: t => jsElemString x ++ "," ++ jsArrString (y :: t)

/-- One array element under `String(...)`: null renders empty. -/
def jsElemString : Json → String
  | .null => ""
  | v => jsToString v

end

/-- The function-response payload as `partsToText` renders it: the
`llmContent` member coerced by `String(...)` when present, the compact JSON
serialization for other objects and arrays, the JavaScript string coercion
for truthy primitives, and the empty string for falsy values. -/
def renderResponse : Json → String
  | .obj m =>
    match lookupLast "llmContent" m with
    | some v => jsToString v
    | none => stringifyCompact (.obj m)
  | .arr xs => stringifyCompact (.arr xs)
  | .null => ""
  | .bool true => "true"
  | .bool false => ""
  | .num n => if n = 0 then "" else intToString n
  | .str s => s

/-- The flattened text of one part (`partsToText`, source lines 161-207):
text verbatim; function calls as a newline-wrapped
`JSON.stringify(\x7btool_call: \x7bname, arguments\x7d\x7d, null, 2)` block;
function responses as a `Tool "..." returned:` block; data parts as
bracketed placeholders. -/
def partToText : Part → String
  | .text s => s
  | .functionCall fc =>
    "\n" ++ stringify2 0 (Json.obj [("tool_call",
      Json.obj [("name", fc.name), ("arguments", fc.args)])]) ++ "\n"
  | .functionResponse name resp =>
    "\nTool \"" ++ name ++ "\" returned:\n" ++ renderResponse resp ++ "\n"
  | .inlineData mime => "[Inline data: " ++ mime ++ "]"
  | .fileData uri => "[File: " ++ uri ++ "]"

/-- `partsToText`: the concatenation of the parts' flattened texts. -/
def partsToText (ps : List Part) : String :=
  String.join (ps.map partToText)

/-- Backend message roles. -/
inductive OllamaRole where
  | system : OllamaRole
  | user : OllamaRole
  | assistant : OllamaRole
deriving DecidableEq

/-- A flat backend chat message. -/
structure OllamaMessage where
  role : OllamaRole
  content : String

/-- Role mapping of the converter: `model` becomes `assistant`, `user`
passes through. -/
def roleMap : GenRole → OllamaRole
  | .model => .assistant
  | .user => .user

/-- The body messages of `convertToOllamaMessages`: one message per turn
whose flattened text is non-empty. -/
def contentMessages : List Content → List OllamaMessage
  | [] => []
  | c :: t =>
    (if partsToText c.parts ≠ "" then [⟨roleMap c.role, partsToText c.parts⟩] else []) ++
      contentMessages t

/-- `convertToOllamaMessages` (source lines 118-154) at its call sites,
where the system instruction argument is always the already-flattened and
tool-injected string: a leading system message when that string is
non-empty, then one message per non-empty turn. -/
def convertToOllamaMessages (contents : List Content) (systemInstruction : String) :
    List OllamaMessage :=
  (if systemInstruction ≠ "" then [⟨OllamaRole.system, systemInstruction⟩] else []) ++
    contentMessages contents

/-! ## Tool-instruction injection (`addToolInstructions`, lines 212-277) -/

/-- One parameter line of the tool description, with the required/optional
marker (`undefined` renders for a missing type, as in a template literal). -/
def paramLine (required : List String) (kv : String × ParamSchema) : String :=
  "    " ++ kv.1 ++ (if required.contains kv.1 then " (required)" else " (optional)") ++
    ": " ++ (kv.2.type.getD "undefined") ++ " - " ++ (kv.2.description.getD "")

/-- One tool's description block (`name: description` plus its parameter
lines, or `(none)`). -/
def toolEntry (fn : FunctionDeclaration) : String :=
  let name := match fn.name with
    | some s => if s ≠ "" then s else "unknown"
    | none => "unknown"
  let desc := (fn.description).getD ""
  let params := (fn.parameters).getD ⟨none, none⟩
  let props := params.properties.getD []
  let required := params.required.getD []
  let paramsList := String.intercalate "\n" (props.map (paramLine required))
  name ++ ": " ++ desc ++ "\n  Parameters:\n" ++
    (if paramsList ≠ "" then paramsList else "    (none)")

/-- The fixed protocol block appended after the tool descriptions. -/
def toolPrompt (fds : List FunctionDeclaration) : String :=
  "\n\nYou have access to these tools. Only use them when the user explicitly requests an action:\n\n" ++
    String.intercalate "\n\n" (fds.map toolEntry) ++
    "\n\nTo call a tool, respond with JSON using the EXACT parameter names shown above:\n```json\n\x7b\"tool_call\": \x7b\"name\": \"tool_name\", \"arguments\": \x7b\"param_name\": \"value\"\x7d\x7d\x7d\n```\n\nIMPORTANT:\n- Use the exact parameter names from the tool definition (e.g., \"dir_path\" not \"directory_path\")\n- Include all required parameters\n- For questions or conversation, respond with normal text (no JSON)\n\n"

/-- `addToolInstructions`: no-op without a first tool carrying a non-empty
declaration list; otherwise the system text plus the protocol block. -/
def addToolInstructions (systemInstruction : String) (tools : Option (List Tool)) :
    String :=
  match tools with
  | none => systemInstruction
  | some [] => systemInstruction
  | some (t :: _) =>
    match t.functionDeclarations with
    | none => systemInstruction
    | some [] => systemInstruction
    | some (fn :: fns) => systemInstruction ++ toolPrompt (fn :: fns)

/-! ## Request preamble shared by the single-shot and streaming paths -/

/-- The request's `contents` field before normalization: a bare string, one
turn, or a list of strings and turns. -/
inductive ContentsItem where
  | str : String → ContentsItem
  | content : Content → ContentsItem

/-- The dynamic shapes `normalizeContents` accepts. -/
inductive ContentsInput where
  | str : String → ContentsInput
  | one : Content → ContentsInput
  | list : List ContentsItem → ContentsInput

/-- `normalizeContents`: a bare string becomes a single user turn with one
text part; list entries are normalized elementwise. -/
def normalizeContents : ContentsInput → List Content
  | .str s => [⟨.user, [.text s]⟩]
  | .one c => [c]
  | .list xs =>
    xs.map (fun x => match x with
      | .str s => ⟨GenRole.user, [Part.text s]⟩
      | .content c => c)

/-- The dynamic shapes of `request.config.systemInstruction`. -/
inductive SystemInstruction where
  | str : String → SystemInstruction
  | content : Content → SystemInstruction
  | parts : List Part → SystemInstruction
  | part : Part → SystemInstruction

/-- The system-instruction flattening shared by `generateContent` (lines
451-464) and `generateContentStreamInternal` (lines 521-534): strings pass
through, turns and part lists flatten, a lone part contributes its text
field, and anything else (or an absent instruction) yields the empty
string. -/
def buildSystemText : Option SystemInstruction → String
  | none => ""
  | some (.str s) => s
  | some (.content c) => partsToText c.parts
  | some (.parts ps) => partsToText ps
  | some (.part (.text s)) => s
  | some (.part _) => ""

/-- The system text actually sent: tool instructions are injected only when
the flattened system text is non-empty (`if (systemText)`, lines 466-470
and 536-540). -/
def requestSystemText (si : Option SystemInstruction) (tools : Option (List Tool)) :
    String :=
  let st := buildSystemText si
  if st ≠ "" then addToolInstructions st tools else st

/-- The backend message list both request paths build. -/
def requestMessages (si : Option SystemInstruction) (tools : Option (List Tool))
    (contents : ContentsInput) : List OllamaMessage :=
  convertToOllamaMessages (normalizeContents contents) (requestSystemText si tools)

/-! ## Response adapters -/

/-- Terminal classification of a completion. -/
inductive FinishReason where
  | STOP : FinishReason
  | MAX_TOKENS : FinishReason
deriving DecidableEq

/-- `choices[].message` of a backend completion. -/
structure OllamaMessageOut where
  role : String
  content : String

/-- One completion choice. -/
structure OllamaChoice where
  index : Nat
  message : OllamaMessageOut
  finish_reason : String

/-- The backend's token accounting. -/
structure OllamaUsage where
  prompt_tokens : Nat
  completion_tokens : Nat
  total_tokens : Nat

/-- A complete backend completion response. -/
structure OllamaCompletionResponse where
  id : String
  object : String
  created : Nat
  model : String
  choices : List OllamaChoice
  usage : OllamaUsage

/-- One response candidate of the generic format. -/
structure Candidate where
  content : Content
  finishReason : Option FinishReason
  index : Nat

/-- Token accounting of the generic format. -/
structure UsageMetadata where
  promptTokenCount : Nat
  candidatesTokenCount : Nat
  totalTokenCount : Nat

/-- A generic generation response (single candidate in this adapter). -/
structure GenerateContentResponse where
  candidates : List Candidate
  usageMetadata : Option UsageMetadata

/-- The tools guard shared by both response paths:
`tools && tools.length > 0 && 'functionDeclarations' in tools[0]`. -/
def hasTools : Option (List Tool) → Bool
  | none => false
  | some [] => false
  | some (t :: _) => t.functionDeclarations.isSome

/-- `convertToGeminiResponse` (source lines 390-445): run the extractor
over the full content only when tools were declared; emit one candidate
holding either a single functionCall part or a single text part; map the
stop reason; copy the backend usage counts.  `none` models the exception
thrown on a response without choices. -/
def convertToGeminiResponse (resp : OllamaCompletionResponse)
    (tools : Option (List Tool)) : Option GenerateContentResponse :=
  match resp.choices with
  | [] => none
  | choice :: _ =>
    let content := choice.message.content
    let toolCall := if hasTools tools then parseToolCall content tools else none
    let parts : List Part :=
      match toolCall with
      | some tc => [.functionCall tc]
      | none => [.text content]
    let finishReason :=
      if choice.finish_reason = "length" then FinishReason.MAX_TOKENS
      else FinishReason.STOP
    some
      { candidates := [⟨⟨.model, parts⟩, some finishReason, 0⟩],
        usageMetadata := some ⟨resp.usage.prompt_tokens, resp.usage.completion_tokens,
          resp.usage.total_tokens⟩ }

/-! ## The streaming path (`generateContentStreamInternal`, lines 517-658) -/

/-- `choices[].delta` of a stream chunk. -/
structure StreamDelta where
  role : Option String
  content : Option String

/-- One choice of a stream chunk. -/
structure StreamChoice where
  index : Nat
  delta : StreamDelta
  finish_reason : Option String

/-- One parsed stream chunk (`data: <json>` frame). -/
structure OllamaStreamChunk where
  id : String
  object : String
  created : Nat
  model : String
  choices : List StreamChoice

/-- `chunk.choices[0]?.delta.content`. -/
def deltaContent (c : OllamaStreamChunk) : Option String :=
  match c.choices with
  | [] => none
  | ch :: _ => ch.delta.content

/-- `chunk.choices[0]?.finish_reason`. -/
def chunkFinish (c : OllamaStreamChunk) : Option String :=
  match c.choices with
  | [] => none
  | ch :: _ => ch.finish_reason

/-- Truthiness of the incremental content (`if (delta?.content)`). -/
def contentTruthy (c : OllamaStreamChunk) : Bool :=
  match deltaContent c with
  | some s => s ≠ ""
  | none => false

/-- The finish-reason mapping of a text increment event. -/
def streamFinishMap : Option String → Option FinishReason
  | none => none
  | some r => some (if r = "length" then FinishReason.MAX_TOKENS else FinishReason.STOP)

/-- A yielded text-increment response. -/
def textEvent (s : String) (fr : Option FinishReason) : GenerateContentResponse :=
  ⟨[⟨⟨.model, [.text s]⟩, fr, 0⟩], none⟩

/-- The final functionCall override response (the `tokenCounts` record is
never updated by the source, so the synthesized usage block is zero). -/
def fcEvent (tc : FunctionCall) : GenerateContentResponse :=
  ⟨[⟨⟨.model, [.functionCall tc]⟩, some .STOP, 0⟩], some ⟨0, 0, 0⟩⟩

/-- The extractor as the response paths invoke it: only when tools are
declared. -/
def effToolCall (text : String) (tools : Option (List Tool)) : Option FunctionCall :=
  if hasTools tools then parseToolCall text tools else none

/-- Processing of one stream chunk (source lines 594-648): a truthy content
delta is accumulated and immediately yielded as a text event; a non-null
finish reason triggers the extractor over the accumulated text and, on a
valid call, one functionCall event. -/
def processChunk (tools : Option (List Tool)) (acc : String)
    (c : OllamaStreamChunk) : String × List GenerateContentResponse :=
  let acc' := if contentTruthy c then acc ++ (deltaContent c).getD "" else acc
  let textEvs :=
    if contentTruthy c then
      [textEvent ((deltaContent c).getD "") (streamFinishMap (chunkFinish c))]
    else []
  let fcEvs :=
    match chunkFinish c with
    | some _ =>
      match effToolCall acc' tools with
      | some tc => [fcEvent tc]
      | none => []
    | none => []
  (acc', textEvs ++ fcEvs)

/-- The responses the streaming path yields for a list of parsed chunks,
threading the accumulated text. -/
def processChunks (tools : Option (List Tool)) (acc : String) :
    List OllamaStreamChunk → List GenerateContentResponse
  | [] => []
  | c :: t =>
    (processChunk tools acc c).2 ++ processChunks tools (processChunk tools acc c).1 t

/-! ## Token estimate and the embedding stub -/

/-- The token estimate of `countTokens` (source lines 660-673):
`Math.ceil(text.length / 4)` over the flattened text of all parts. -/
def estimatedTokens (contents : ContentsInput) : Nat :=
  ((partsToText ((normalizeContents contents).flatMap (·.parts))).length + 3) / 4

/-- The `countTokens` response. -/
structure CountTokensResponse where
  totalTokens : Nat

/-- `countTokens`: the estimate wrapped in the response shape. -/
def countTokens (contents : ContentsInput) : CountTokensResponse :=
  ⟨estimatedTokens contents⟩

/-- Embedding request parameters (opaque to the adapter). -/
structure EmbedContentParameters where
  contents : ContentsInput

/-- Embedding response shape (never produced by this adapter). -/
structure EmbedContentResponse where
  embeddings : List (List Int)

/-- `embedContent` (source lines 675-679): unconditionally throws. -/
def embedContent (_r : EmbedContentParameters) :
    Except String EmbedContentResponse :=
  .error "Ollama embedContent not implemented"

/-! ## Helper lemmas about the message converter and the stream -/

theorem foldl_append_str : ∀ (l : List String) (a : String),
    List.foldl (fun r s => r ++ s) a l = a ++ List.foldl (fun r s => r ++ s) "" l := by
  intro l
  induction l with
  | nil => intro a; simp
  | cons x t ih =>
    intro a
    rw [List.foldl_cons, ih (a ++ x), List.foldl_cons, ih ("" ++ x)]
    simp [String.append_assoc]

theorem join_cons (x : String) (t : List String) :
    String.join (x :: t) = x ++ String.join t := by
  rw [String.join, List.foldl_cons, foldl_append_str t ("" ++ x)]
  simp [String.join]

theorem join_append (a b : List String) :
    String.join (a ++ b) = String.join a ++ String.join b := by
  induction a with
  | nil => simp [String.join]
  | cons x t ih =>
    rw [List.cons_append, join_cons, ih, join_cons, String.append_assoc]

theorem partsToText_append (l1 l2 : List Part) :
    partsToText (l1 ++ l2) = partsToText l1 ++ partsToText l2 := by
  rw [partsToText, List.map_append, join_append]
  rfl

theorem contentMessages_no_system :
    ∀ contents : List Content, ∀ m ∈ contentMessages contents, m.role ≠ OllamaRole.system := by
  intro contents
  induction contents with
  | nil => intro m hm; simp [contentMessages] at hm
  | cons c t ih =>
    intro m hm
    rw [contentMessages] at hm
    rcases List.mem_append.mp hm with h | h
    · by_cases hc : partsToText c.parts ≠ ""
      · rw [if_pos hc] at h
        simp only [List.mem_singleton] at h
        subst h
        cases hr : c.role <;> simp [roleMap, hr]
      · rw [if_neg hc] at h
        simp at h
    · exact ih m h

theorem contentMessages_ne_empty :
    ∀ contents : List Content, ∀ m ∈ contentMessages contents, m.content ≠ "" := by
  intro contents
  induction contents with
  | nil => intro m hm; simp [contentMessages] at hm
  | cons c t ih =>
    intro m hm
    rw [contentMessages] at hm
    rcases List.mem_append.mp hm with h | h
    · by_cases hc : partsToText c.parts ≠ ""
      · rw [if_pos hc] at h
        simp only [List.mem_singleton] at h
        subst h
        exact hc
      · rw [if_neg hc] at h
        simp at h
    · exact ih m h

theorem contentMessages_eq_filter :
    ∀ contents : List Content, contentMessages contents =
      (contents.filter (fun c => partsToText c.parts ≠ "")).map
        (fun c => ⟨roleMap c.role, partsToText c.parts⟩) := by
  intro contents
  induction contents with
  | nil => rfl
  | cons c t ih =>
    rw [contentMessages, ih]
    by_cases hc : partsToText c.parts ≠ ""
    · rw [if_pos hc, List.filter_cons_of_pos (by simpa using hc)]
      rfl
    · rw [if_neg hc, List.filter_cons_of_neg (by simpa using hc)]
      rfl

/-- The concatenation of the incremental contents of a chunk list. -/
def deltaConcat (chunks : List OllamaStreamChunk) : String :=
  String.join (chunks.map (fun c => (deltaContent c).getD ""))

/-- The text carried by one yielded response: the concatenation of the text
parts of its first candidate (a functionCall override carries none). -/
def textIncrement (e : GenerateContentResponse) : String :=
  match e.candidates with
  | [] => ""
  | cand :: _ =>
    String.join (cand.content.parts.filterMap
      (fun p => match p with
        | Part.text s => some s
        | _ => none))

/-- The concatenation of all yielded text increments of a stream. -/
def streamText (evs : List GenerateContentResponse) : String :=
  String.join (evs.map textIncrement)

/-- A yielded response that is a plain text increment. -/
def IsTextEvent (e : GenerateContentResponse) : Prop :=
  ∃ s fr, e = textEvent s fr

/-- The number of functionCall events in a yielded stream. -/
def countFcEvents (evs : List GenerateContentResponse) : Nat :=
  evs.countP (fun e =>
    match e.candidates with
    | ⟨⟨_, [Part.functionCall _]⟩, _, _⟩ :: _ => true
    | _ => false)

theorem textIncrement_textEvent (s : String) (fr : Option FinishReason) :
    textIncrement (textEvent s fr) = s := by
  simp [textIncrement, textEvent, String.join]

theorem textIncrement_fcEvent (tc : FunctionCall) : textIncrement (fcEvent tc) = "" := by
  simp [textIncrement, fcEvent, String.join]

theorem streamText_processChunks (tools : Option (List Tool)) :
    ∀ (chunks : List OllamaStreamChunk) (acc : String),
      streamText (processChunks tools acc chunks) = deltaConcat chunks := by
  intro chunks
  induction chunks with
  | nil => intro acc; rfl
  | cons c t ih =>
    intro acc
    rw [processChunks, streamText, List.map_append, join_append]
    have h2 : String.join ((processChunks tools (processChunk tools acc c).1 t).map
        textIncrement) = deltaConcat t := ih _
    rw [h2]
    have h1 : String.join (((processChunk tools acc c).2).map textIncrement) =
        (deltaContent c).getD "" := by
      rw [processChunk]
      by_cases hc : contentTruthy c = true
      · have hcg : (deltaContent c).getD "" ≠ "" := by
          rw [contentTruthy] at hc
          cases hd : deltaContent c with
          | none => rw [hd] at hc; simp at hc
          | some s => rw [hd] at hc; simpa using hc
        simp only [hc, if_true]
        cases hf : chunkFinish c with
        | none =>
          simp [textIncrement_textEvent, String.join]
        | some r =>
          cases he : effToolCall (acc ++ (deltaContent c).getD "") tools with
          | none => simp [textIncrement_textEvent, String.join]
          | some tc => simp [textIncrement_textEvent, textIncrement_fcEvent, String.join]
      · have hcg : (deltaContent c).getD "" = "" := by
          rw [contentTruthy] at hc
          cases hd : deltaContent c with
          | none => rfl
          | some s => rw [hd] at hc; simpa using hc
        simp only [hc, if_false, Bool.false_eq_true]
        cases hf : chunkFinish c with
        | none => simp [String.join, hcg]
        | some r =>
          cases he : effToolCall acc tools with
          | none => simp [String.join, hcg]
          | some tc => simp [textIncrement_fcEvent, String.join, hcg]
    have hdc : deltaConcat (c :: t) = (deltaContent c).getD "" ++ deltaConcat t := by
      rw [deltaConcat, List.map_cons, join_cons]
      rfl
    rw [h1, hdc]

theorem processChunks_acc (tools : Option (List Tool)) :
    ∀ (chunks : List OllamaStreamChunk) (acc : String) (c : OllamaStreamChunk),
      (processChunk tools acc c).1 = acc ++ (deltaContent c).getD "" := by
  intro _ acc c
  rw [processChunk]
  by_cases hc : contentTruthy c = true
  · simp [hc]
  · have hcg : (deltaContent c).getD "" = "" := by
      rw [contentTruthy] at hc
      cases hd : deltaContent c with
      | none => rfl
      | some s => rw [hd] at hc; simpa using hc
    simp [hc, hcg]

/-- Splitting a stream whose finish reason appears only on the last chunk:
all events before the final extractor decision are text increments, and one
functionCall event is appended exactly when the extractor succeeds on the
full accumulated text. -/
theorem processChunks_split (tools : Option (List Tool)) :
    ∀ (chunks : List OllamaStreamChunk) (acc : String) (hne : chunks ≠ []),
      (∀ c ∈ chunks.dropLast, chunkFinish c = none) →
      ∃ pre, (∀ e ∈ pre, IsTextEvent e) ∧
        processChunks tools acc chunks =
          pre ++ (match chunkFinish (chunks.getLast hne),
                    effToolCall (acc ++ deltaConcat chunks) tools with
                  | some _, some tc => [fcEvent tc]
                  | _, _ => []) := by
  intro chunks
  induction chunks with
  | nil => intro acc h; exact absurd rfl h
  | cons c t ih =>
    intro acc _ hpre
    cases t with
    | nil =>
      refine ⟨if contentTruthy c = true
          then [textEvent ((deltaContent c).getD "") (streamFinishMap (chunkFinish c))]
          else [], ?_, ?_⟩
      · intro e he
        by_cases hc : contentTruthy c = true
        · rw [if_pos hc] at he
          simp only [List.mem_singleton] at he
          exact ⟨_, _, he⟩
        · rw [if_neg hc] at he
          simp at he
      · rw [processChunks, processChunks, List.append_nil, processChunk]
        have hacc : acc ++ deltaConcat [c] = acc ++ (deltaContent c).getD "" := by
          rw [deltaConcat]
          simp [String.join]
        have hgl : [c].getLast (by simp) = c := rfl
        rw [hgl, hacc]
        by_cases hc : contentTruthy c = true
        · simp only [hc, if_true]
          cases hf : chunkFinish c with
          | none => rfl
          | some r =>
            cases he : effToolCall (acc ++ (deltaContent c).getD "") tools with
            | none => rfl
            | some tc => rfl
        · have hcg : (deltaContent c).getD "" = "" := by
            rw [contentTruthy] at hc
            cases hd : deltaContent c with
            | none => rfl
            | some s => rw [hd] at hc; simpa using hc
          have hae : acc ++ (deltaContent c).getD "" = acc := by
            rw [hcg]
            simp
          rw [hae]
          simp only [hc, if_false, Bool.false_eq_true]
          cases hf : chunkFinish c with
          | none => rfl
          | some r =>
            cases he : effToolCall acc tools with
            | none => rfl
            | some tc => rfl
    | cons c2 t2 =>
      have hc0 : chunkFinish c = none := by
        apply hpre
        rw [List.dropLast_cons_of_ne_nil (by simp)]
        exact List.mem_cons_self c _
      have hpre2 : ∀ x ∈ (c2 :: t2).dropLast, chunkFinish x = none := by
        intro x hx
        apply hpre
        rw [List.dropLast_cons_of_ne_nil (by simp)]
        exact List.mem_cons_of_mem c hx
      rcases ih ((processChunk tools acc c).1) (by simp) hpre2 with ⟨pre2, hpre2t, heq⟩
      refine ⟨(processChunk tools acc c).2 ++ pre2, ?_, ?_⟩
      · intro e he
        rcases List.mem_append.mp he with h | h
        · rw [processChunk] at h
          simp only [hc0] at h
          by_cases hct : contentTruthy c = true
          · simp only [hct, if_true, List.append_nil] at h
            simp only [List.mem_singleton] at h
            exact ⟨_, _, h⟩
          · simp only [hct, if_false, Bool.false_eq_true, List.append_nil] at h
            simp at h
        · exact hpre2t e h
      · rw [processChunks, heq, List.append_assoc]
        have hgl : (c :: c2 :: t2).getLast (by simp) = (c2 :: t2).getLast (by simp) := by
          rfl
        rw [hgl]
        have haccs : (processChunk tools acc c).1 ++ deltaConcat (c2 :: t2) =
            acc ++ deltaConcat (c :: c2 :: t2) := by
          rw [processChunks_acc tools (c :: c2 :: t2) acc c]
          have : deltaConcat (c :: c2 :: t2) =
              (deltaContent c).getD "" ++ deltaConcat (c2 :: t2) := by
            rw [deltaConcat, List.map_cons, join_cons]
            rfl
          rw [this, String.append_assoc]
        rw [haccs]

/-- Without declared tools the extractor guard is off. -/
theorem effToolCall_no_tools {tools : Option (List Tool)}
    (h : tools = none ∨ tools = some []) (text : String) :
    effToolCall text tools = none := by
  rcases h with h | h <;> subst h <;> rfl

theorem processChunks_no_tools_text {tools : Option (List Tool)}
    (h : tools = none ∨ tools = some []) :
    ∀ (chunks : List OllamaStreamChunk) (acc : String),
      ∀ e ∈ processChunks tools acc chunks, IsTextEvent e := by
  intro chunks
  induction chunks with
  | nil => intro acc e he; simp [processChunks] at he
  | cons c t ih =>
    intro acc e he
    rw [processChunks] at he
    rcases List.mem_append.mp he with hm | hm
    · rw [processChunk] at hm
      have hfc : (match chunkFinish c with
          | some _ =>
            match effToolCall (if contentTruthy c = true
                then acc ++ (deltaContent c).getD "" else acc) tools with
            | some tc => [fcEvent tc]
            | none => []
          | none => []) = ([] : List GenerateContentResponse) := by
        cases hf : chunkFinish c with
        | none => rfl
        | some r => rw [effToolCall_no_tools h]
      simp only [hfc, List.append_nil] at hm
      by_cases hct : contentTruthy c = true
      · simp only [hct, if_true, List.mem_singleton] at hm
        exact ⟨_, _, hm⟩
      · simp only [hct, if_false, Bool.false_eq_true] at hm
        simp at hm
    · exact ih _ e hm

/-- `Math.ceil(L / 4)` as natural division. -/
theorem ceil_div_four (L : Nat) : (((L + 3) / 4 : Nat) : ℤ) = ⌈(L : ℚ) / 4⌉ := by
  symm
  rw [Int.ceil_eq_iff]
  constructor
  · rw [lt_div_iff (by norm_num : (0 : ℚ) < 4)]
    have hZ1 : ((((L + 3) / 4 : Nat) : ℤ) - 1) * 4 < (L : ℤ) := by omega
    have : (((((L + 3) / 4 : Nat) : ℤ) : ℚ) - 1) * 4 < ((L : ℤ) : ℚ) := by
      exact_mod_cast hZ1
    push_cast at this ⊢
    linarith
  · rw [div_le_iff (by norm_num : (0 : ℚ) < 4)]
    have hZ2 : (L : ℤ) ≤ (((L + 3) / 4 : Nat) : ℤ) * 4 := by omega
    exact_mod_cast hZ2

/-! ## Fixtures for witnesses and counterexamples -/

/-- A declared tool set with the single tool `list_files`. -/
def toolListFiles : Tool :=
  ⟨some [⟨some "list_files", some "List files in a directory", none⟩]⟩

/-! ## The claims -/

/-- C9: the embedding operation fails immediately and unconditionally for
every input; it never returns a successful result. -/
theorem embedContent_always_fails :
    ∀ r : EmbedContentParameters,
      embedContent r = Except.error "Ollama embedContent not implemented" ∧
      ∀ v : EmbedContentResponse, embedContent r ≠ Except.ok v := by
  intro r
  exact ⟨rfl, fun v h => nomatch h⟩

/-- C8: the token-count estimate equals the ceiling of a quarter of the
flattened text's length, and is monotonically non-decreasing in that
length. -/
theorem countTokens_ceil_monotone :
    (∀ contents : ContentsInput, ((countTokens contents).totalTokens : ℤ) =
       ⌈((partsToText ((normalizeContents contents).flatMap (·.parts))).length : ℚ) / 4⌉) ∧
    (∀ c1 c2 : ContentsInput,
       (partsToText ((normalizeContents c1).flatMap (·.parts))).length ≤
         (partsToText ((normalizeContents c2).flatMap (·.parts))).length →
       (countTokens c1).totalTokens ≤ (countTokens c2).totalTokens) := by
  constructor
  · intro contents
    exact ceil_div_four _
  · intro c1 c2 h
    exact Nat.div_le_div_right (by omega)

/-- C8 witness: a 40-character prompt estimates to 10 tokens, and the
estimate is monotone on concrete inputs. -/
theorem countTokens_ceil_monotone_witness :
    (countTokens (ContentsInput.str "aaaaaaaaaaaaaaaaaaaaaaaaaaaaaaaaaaaaaaaa")).totalTokens
        = 10 ∧
      (countTokens (ContentsInput.str "ab")).totalTokens ≤
        (countTokens (ContentsInput.str "abcd")).totalTokens :=
  ⟨by decide,
    countTokens_ceil_monotone.2 (ContentsInput.str "ab") (ContentsInput.str "abcd")
      (by decide)⟩

/-- C10: when the system instruction is absent or flattens to the empty
string, no tool instructions are injected and the backend request carries
no system message, whatever tools are declared.  Both request paths build
their messages through `requestMessages` (the source repeats the same
block in `generateContent` and `generateContentStreamInternal`). -/
theorem empty_system_no_injection (si : Option SystemInstruction)
    (tools : Option (List Tool)) (contents : ContentsInput)
    (h : buildSystemText si = "") :
    requestSystemText si tools = "" ∧
    requestMessages si tools contents =
      convertToOllamaMessages (normalizeContents contents) "" ∧
    ∀ m ∈ requestMessages si tools contents, m.role ≠ OllamaRole.system := by
  have h1 : requestSystemText si tools = "" := by
    rw [requestSystemText, h]
    simp
  refine ⟨h1, ?_, ?_⟩
  · rw [requestMessages, h1]
  · intro m hm
    rw [requestMessages, h1, convertToOllamaMessages,
      if_neg (by simp : ¬ (("" : String) ≠ "")), List.nil_append] at hm
    exact contentMessages_no_system _ m hm

/-- C10 witness: with an absent system instruction and a declared tool,
the injected system text is empty and the message list has no system
message. -/
theorem empty_system_no_injection_witness :
    requestSystemText none (some [toolListFiles]) = "" ∧
    requestMessages none (some [toolListFiles]) (ContentsInput.str "hi") =
      convertToOllamaMessages (normalizeContents (ContentsInput.str "hi")) "" :=
  ⟨(empty_system_no_injection none (some [toolListFiles]) (ContentsInput.str "hi") rfl).1,
   (empty_system_no_injection none (some [toolListFiles]) (ContentsInput.str "hi") rfl).2.1⟩

/-- C7 counterexample: with an empty system instruction the converter
emits no system message at all, so "exactly one system message" fails as
a universal statement. -/
theorem convert_empty_system_counterexample :
    List.countP (fun m => m.role == OllamaRole.system)
      (convertToOllamaMessages [⟨GenRole.user, [Part.text "hi"]⟩] "") ≠ 1 := by
  decide

/-- C7 amended: when the injected system text is non-empty the message
list has exactly one system message, placed first, carrying that text;
with empty system text there is none; no message has empty content; and
the body messages are exactly the non-empty turns with `model` mapped to
`assistant` and `user` passed through. -/
theorem convert_messages_invariants (contents : List Content) (sysText : String) :
    (sysText ≠ "" →
      (convertToOllamaMessages contents sysText).head? =
          some ⟨OllamaRole.system, sysText⟩ ∧
      List.countP (fun m => m.role == OllamaRole.system)
        (convertToOllamaMessages contents sysText) = 1) ∧
    (sysText = "" →
      ∀ m ∈ convertToOllamaMessages contents sysText, m.role ≠ OllamaRole.system) ∧
    (∀ m ∈ convertToOllamaMessages contents sysText, m.content ≠ "") ∧
    convertToOllamaMessages contents sysText =
      (if sysText ≠ "" then [⟨OllamaRole.system, sysText⟩] else []) ++
        (contents.filter (fun c => partsToText c.parts ≠ "")).map
          (fun c => ⟨roleMap c.role, partsToText c.parts⟩) := by
  have hbody : ∀ m ∈ contentMessages contents, m.role ≠ OllamaRole.system :=
    contentMessages_no_system contents
  refine ⟨?_, ?_, ?_, ?_⟩
  · intro hne
    constructor
    · rw [convertToOllamaMessages, if_pos hne]
      rfl
    · rw [convertToOllamaMessages, if_pos hne, List.countP_append]
      have h0 : List.countP (fun m => m.role == OllamaRole.system)
          (contentMessages contents) = 0 := by
        rw [List.countP_eq_zero]
        intro m hm
        simpa using hbody m hm
      rw [h0]
      rfl
  · intro he m hm
    rw [convertToOllamaMessages, if_neg (by simp [he]), List.nil_append] at hm
    exact hbody m hm
  · intro m hm
    rw [convertToOllamaMessages] at hm
    by_cases hne : sysText ≠ ""
    · rw [if_pos hne] at hm
      rcases List.mem_append.mp hm with h | h
      · simp only [List.mem_singleton] at h
        subst h
        exact hne
      · exact contentMessages_ne_empty contents m h
    · rw [if_neg hne, List.nil_append] at hm
      exact contentMessages_ne_empty contents m hm
  · rw [convertToOllamaMessages, contentMessages_eq_filter]

/-- C7 witness: a non-empty system text with one user and one model turn. -/
theorem convert_messages_invariants_witness :
    (convertToOllamaMessages
        [⟨GenRole.user, [Part.text "hi"]⟩, ⟨GenRole.model, [Part.text "ok"]⟩]
        "sys").head? = some ⟨OllamaRole.system, "sys"⟩ :=
  ((convert_messages_invariants
    [⟨GenRole.user, [Part.text "hi"]⟩, ⟨GenRole.model, [Part.text "ok"]⟩]
    "sys").1 (by decide)).1

/-- C6: with no declared tools, both the single-shot and the streaming
adapters produce only text parts, never a functionCall part (the extractor
guard `hasTools` is off, so `parseToolCall` is never consulted). -/
theorem no_tools_responses_text_only (tools : Option (List Tool))
    (h : tools = none ∨ tools = some []) :
    (∀ (resp : OllamaCompletionResponse) (gr : GenerateContentResponse),
        convertToGeminiResponse resp tools = some gr →
        ∀ cand ∈ gr.candidates, ∃ s, cand.content.parts = [Part.text s]) ∧
    (∀ (chunks : List OllamaStreamChunk) (acc : String),
        ∀ e ∈ processChunks tools acc chunks, IsTextEvent e) := by
  constructor
  · intro resp gr hgr cand hcand
    have hht : hasTools tools = false := by
      rcases h with h | h <;> subst h <;> rfl
    cases hch : resp.choices with
    | nil =>
      rw [convertToGeminiResponse, hch] at hgr
      exact absurd hgr (by simp)
    | cons ch rest =>
      rw [convertToGeminiResponse, hch] at hgr
      simp only [hht, Bool.false_eq_true, if_false] at hgr
      rw [Option.some_inj] at hgr
      subst hgr
      simp only [List.mem_singleton] at hcand
      subst hcand
      exact ⟨ch.message.content, rfl⟩
  · intro chunks acc e he
    exact processChunks_no_tools_text h chunks acc e he

/-- C6 witness: a concrete completion without tools converts to a single
text part. -/
theorem no_tools_responses_text_only_witness :
    ∃ s, (Candidate.mk ⟨GenRole.model, [Part.text "hello"]⟩
      (some FinishReason.STOP) 0).content.parts = [Part.text s] :=
  (no_tools_responses_text_only none (Or.inl rfl)).1
    ⟨"id", "chat.completion", 0, "m", [⟨0, ⟨"assistant", "hello"⟩, "stop"⟩], ⟨1, 2, 3⟩⟩
    ⟨[⟨⟨GenRole.model, [Part.text "hello"]⟩, some FinishReason.STOP, 0⟩], some ⟨1, 2, 3⟩⟩
    rfl
    ⟨⟨GenRole.model, [Part.text "hello"]⟩, some FinishReason.STOP, 0⟩
    (List.mem_singleton.mpr rfl)

theorem partsToText_cons (p : Part) (ps : List Part) :
    partsToText (p :: ps) = partToText p ++ partsToText ps := by
  rw [partsToText, List.map_cons, join_cons]
  rfl

/-- C3 counterexample: the flattened text of a functionCall part contains
no code fence at all (no occurrence of three backticks), so the
serialization is not "wrapped in a code fence". -/
theorem functionCall_not_fenced_counterexample :
    partsToText [Part.functionCall ⟨Json.str "list_files", Json.obj []⟩] ≠ "" ∧
    indexOfSub ("```").data
      (partsToText [Part.functionCall ⟨Json.str "list_files", Json.obj []⟩]).data =
        none := by
  exact ⟨by decide, by rfl⟩

/-- C3 amended: a functionCall part is re-serialized as a newline-wrapped
pretty-printed JSON block of the shape
`{"tool_call": {"name", "arguments"}}` (no code fence is added), and any
turn containing such a part embeds that exact block in its flattened
content. -/
theorem functionCall_flattened_shape :
    (∀ fc : FunctionCall, partsToText [Part.functionCall fc] =
       "\n" ++ stringify2 0 (Json.obj [("tool_call",
         Json.obj [("name", fc.name), ("arguments", fc.args)])]) ++ "\n") ∧
    (∀ (ps : List Part) (fc : FunctionCall), Part.functionCall fc ∈ ps →
       ∃ pre post, partsToText ps =
         pre ++ ("\n" ++ stringify2 0 (Json.obj [("tool_call",
           Json.obj [("name", fc.name), ("arguments", fc.args)])]) ++ "\n") ++ post) := by
  constructor
  · intro fc
    rw [partsToText_cons]
    show partToText (Part.functionCall fc) ++ String.join [] = _
    rw [show String.join [] = "" from rfl]
    simp [partToText]
  · intro ps fc hmem
    rcases List.append_of_mem hmem with ⟨l1, l2, rfl⟩
    refine ⟨partsToText l1, partsToText l2, ?_⟩
    rw [partsToText_append, partsToText_cons]
    rw [show partToText (Part.functionCall fc) = "\n" ++ stringify2 0 (Json.obj [("tool_call",
      Json.obj [("name", fc.name), ("arguments", fc.args)])]) ++ "\n" from rfl]
    simp [String.append_assoc]

/-- C3 witness: a turn with surrounding text parts embeds the block. -/
theorem functionCall_flattened_shape_witness :
    ∃ pre post,
      partsToText [Part.text "a", Part.functionCall ⟨Json.str "f", Json.obj []⟩,
        Part.text "b"] =
      pre ++ ("\n" ++ stringify2 0 (Json.obj [("tool_call",
        Json.obj [("name", Json.str "f"), ("arguments", Json.obj [])])]) ++ "\n") ++ post :=
  functionCall_flattened_shape.2
    [Part.text "a", Part.functionCall ⟨Json.str "f", Json.obj []⟩, Part.text "b"]
    ⟨Json.str "f", Json.obj []⟩ (by simp)

/-- A fenced tool call naming `list_files` with empty arguments. -/
def fencedCall : String :=
  "```json\n\x7b\"tool_call\": \x7b\"name\": \"list_files\", \"arguments\": \x7b\x7d\x7d\x7d\n```"

/-- A stream whose two chunks both carry a finish reason. -/
def doubleFinishChunks : List OllamaStreamChunk :=
  [⟨"i", "chunk", 0, "m", [⟨0, ⟨none, some fencedCall⟩, some "stop"⟩]⟩,
   ⟨"i", "chunk", 0, "m", [⟨0, ⟨none, none⟩, some "stop"⟩]⟩]

/-- C4 counterexample: a stream whose final chunk carries a non-null
finish reason and whose accumulated text holds a valid declared call, yet
two functionCall events are yielded, because an earlier chunk also carried
a finish reason. -/
theorem stream_override_double_finish_counterexample :
    countFcEvents (processChunks (some [toolListFiles]) "" doubleFinishChunks) = 2 ∧
    chunkFinish (doubleFinishChunks.getLast (by simp [doubleFinishChunks])) =
      some "stop" ∧
    (effToolCall (deltaConcat doubleFinishChunks) (some [toolListFiles])).isSome =
      true := by
  refine ⟨?_, rfl, ?_⟩ <;> rfl

/-- C4 amended: when only the final chunk carries a non-null finish reason
and the accumulated text holds a valid declared call, exactly one
functionCall event is yielded and it follows every text increment; when no
valid call is found, no extra event is emitted. -/
theorem stream_override_single_event (tools : Option (List Tool))
    (chunks : List OllamaStreamChunk) (hne : chunks ≠ [])
    (hpre : ∀ c ∈ chunks.dropLast, chunkFinish c = none)
    (r : String) (hlast : chunkFinish (chunks.getLast hne) = some r) :
    (∀ tc, effToolCall (deltaConcat chunks) tools = some tc →
       ∃ pre, processChunks tools "" chunks = pre ++ [fcEvent tc] ∧
         ∀ e ∈ pre, IsTextEvent e) ∧
    (effToolCall (deltaConcat chunks) tools = none →
       ∀ e ∈ processChunks tools "" chunks, IsTextEvent e) := by
  have hd : ("" : String) ++ deltaConcat chunks = deltaConcat chunks := by simp
  rcases processChunks_split tools chunks "" hne hpre with ⟨pre, hptext, heq⟩
  rw [hd] at heq
  constructor
  · intro tc htc
    rw [hlast, htc] at heq
    exact ⟨pre, heq, hptext⟩
  · intro htc e he
    rw [hlast, htc, List.append_nil] at heq
    rw [heq] at he
    exact hptext e he

/-- A well-formed stream: text, then a fenced call with the only finish. -/
def streamCallChunks : List OllamaStreamChunk :=
  [⟨"i", "chunk", 0, "m", [⟨0, ⟨none, some "x"⟩, none⟩]⟩,
   ⟨"i", "chunk", 0, "m", [⟨0, ⟨none, some fencedCall⟩, some "stop"⟩]⟩]

/-- C4 witness: the well-formed stream yields text increments followed by
exactly one final functionCall event. -/
theorem stream_override_single_event_witness :
    ∃ pre, processChunks (some [toolListFiles]) "" streamCallChunks =
      pre ++ [fcEvent ⟨Json.str "list_files", Json.obj []⟩] ∧
      ∀ e ∈ pre, IsTextEvent e :=
  (stream_override_single_event (some [toolListFiles]) streamCallChunks
    (by simp [streamCallChunks])
    (by
      intro c hc
      simp [streamCallChunks] at hc
      subst hc
      rfl)
    "stop" rfl).1 ⟨Json.str "list_files", Json.obj []⟩ (by rfl)

/-- C5: the concatenation of all yielded text increments (functionCall
override events contribute none) equals the backend content the single-shot
path reads, and whenever the single-shot path produces a text part, that
part carries exactly this concatenation. -/
theorem stream_text_matches_single_shot (tools : Option (List Tool))
    (chunks : List OllamaStreamChunk) (resp : OllamaCompletionResponse)
    (ch : OllamaChoice) (rest : List OllamaChoice)
    (hch : resp.choices = ch :: rest)
    (hsame : ch.message.content = deltaConcat chunks) :
    streamText (processChunks tools "" chunks) = ch.message.content ∧
    (effToolCall ch.message.content tools = none →
      ∀ gr, convertToGeminiResponse resp tools = some gr →
        ∀ cand ∈ gr.candidates,
          cand.content.parts =
            [Part.text (streamText (processChunks tools "" chunks))]) := by
  have h1 : streamText (processChunks tools "" chunks) = ch.message.content := by
    rw [streamText_processChunks, hsame]
  refine ⟨h1, ?_⟩
  intro htc gr hgr cand hcand
  rw [convertToGeminiResponse, hch] at hgr
  dsimp only at hgr
  have htc2 : (if hasTools tools = true then parseToolCall ch.message.content tools
      else none) = none := htc
  rw [htc2] at hgr
  rw [Option.some_inj] at hgr
  subst hgr
  simp only [List.mem_singleton] at hcand
  subst hcand
  rw [h1]

/-- C5 witness: a two-chunk stream concatenates to the single-shot
content. -/
theorem stream_text_matches_single_shot_witness :
    streamText (processChunks none ""
      [⟨"i", "chunk", 0, "m", [⟨0, ⟨none, some "hel"⟩, none⟩]⟩,
       ⟨"i", "chunk", 0, "m", [⟨0, ⟨none, some "lo"⟩, some "stop"⟩]⟩]) = "hello" :=
  (stream_text_matches_single_shot none
    [⟨"i", "chunk", 0, "m", [⟨0, ⟨none, some "hel"⟩, none⟩]⟩,
     ⟨"i", "chunk", 0, "m", [⟨0, ⟨none, some "lo"⟩, some "stop"⟩]⟩]
    ⟨"id", "chat.completion", 0, "m", [⟨0, ⟨"assistant", "hello"⟩, "stop"⟩], ⟨1, 2, 3⟩⟩
    ⟨0, ⟨"assistant", "hello"⟩, "stop"⟩ [] rfl (by rfl)).1

/-- C1: whenever the raw extraction stage finds a tool invocation whose
name matches no declared tool name (the first declared tool carrying a
non-empty declaration list), `parseToolCall` returns `none`: a fabricated
invocation is never surfaced. -/
theorem parseToolCall_rejects_undeclared (text : String) (t : Tool) (ts : List Tool)
    (fds : List FunctionDeclaration) (hfd : t.functionDeclarations = some fds)
    (hne : fds ≠ []) (fc : FunctionCall) (hraw : rawToolCall text = some fc)
    (hmiss : ∀ s : String, fc.name = Json.str s → (some s) ∉ fds.map (·.name)) :
    parseToolCall text (some (t :: ts)) = none := by
  have hval : nameAllowed (some (t :: ts)) fc.name = false := by
    rw [nameAllowed, hfd]
    cases hnm : fc.name with
    | str s => simpa using hmiss s hnm
    | null => rfl
    | bool b => rfl
    | num n => rfl
    | arr xs => rfl
    | obj m => rfl
  rw [parseToolCall.eq_def, hraw]
  simp [hval]

/-- A fenced invocation of an undeclared tool name. -/
def fakeFenced : String :=
  "```json\n\x7b\"tool_call\": \x7b\"name\": \"fake_tool\", \"arguments\": \x7b\x7d\x7d\x7d\n```"

/-- C1 witness: the fabricated `fake_tool` call is rejected against the
declared tool set `\x7blist_files\x7d`. -/
theorem parseToolCall_rejects_undeclared_witness :
    parseToolCall fakeFenced (some [toolListFiles]) = none :=
  parseToolCall_rejects_undeclared fakeFenced toolListFiles []
    [⟨some "list_files", some "List files in a directory", none⟩] rfl (by simp)
    ⟨Json.str "fake_tool", Json.obj []⟩ (by rfl)
    (by
      intro s hs
      injection hs with h
      subst h
      decide)

/-! ## C2: the function-call round trip

The spec claims the flattened text of every `functionCall` part whose name
is declared re-extracts to the same call.  The balanced-brace scan counts
brace characters inside string literals, so the claim fails for argument
values containing a brace; under brace- and backtick-freeness of the
embedded strings the round trip holds and is proved below. -/


/-- A character that is neither a brace nor a backtick: inside string
literals such characters keep the balanced-brace scan and the code-fence
search of `parseToolCall` honest. -/
def goodChar (c : Char) : Bool :=
  c ≠ '\x7b' && c ≠ '\x7d' && c ≠ '`'

/-- A string free of braces and backticks. -/
def goodStrB (s : String) : Bool :=
  s.data.all goodChar

mutual

/-- All strings of a JSON value (keys included) are brace- and
backtick-free. -/
def goodJsonB : Json → Bool
  | .null => true
  | .bool _ => true
  | .num _ => true
  | .str s => goodStrB s
  | .arr xs => goodArrB xs
  | .obj ms => goodMembersB ms

/-- `goodJsonB` over array elements. -/
def goodArrB : List Json → Bool
  | [] => true
  | x :: t => goodJsonB x && goodArrB t

/-- `goodJsonB` over object members. -/
def goodMembersB : List (String × Json) → Bool
  | [] => true
  | (k, v) :: t => goodStrB k && goodJsonB v && goodMembersB t

end

theorem goodChar_ne_tick {c : Char} (h : goodChar c = true) : c ≠ '`' := by
  rw [goodChar] at h
  simp only [Bool.and_eq_true, decide_eq_true_eq] at h
  exact h.2

theorem goodChar_ne_braces {c : Char} (h : goodChar c = true) :
    c ≠ '\x7b' ∧ c ≠ '\x7d' := by
  rw [goodChar] at h
  simp only [Bool.and_eq_true, decide_eq_true_eq] at h
  exact ⟨h.1.1, h.1.2⟩

theorem escChar_good {c : Char} (h : goodChar c = true) :
    ∀ e ∈ escChar c, goodChar e = true := by
  intro e he
  rcases escChar_cases c with ⟨h1, _, _⟩ | ⟨e2, h1, hdec⟩
  · rw [h1] at he
    simp only [List.mem_singleton] at he
    subst he
    exact h
  · rw [h1] at he
    rcases List.mem_cons.mp he with rfl | he2
    · decide
    · simp only [List.mem_singleton] at he2
      subst he2
      rw [escDecode] at hdec
      by_cases q1 : e = '"'
      · subst q1; decide
      rw [if_neg q1] at hdec
      by_cases q2 : e = '\\'
      · subst q2; decide
      rw [if_neg q2] at hdec
      by_cases q3 : e = '/'
      · subst q3; decide
      rw [if_neg q3] at hdec
      by_cases q4 : e = 'n'
      · subst q4; decide
      rw [if_neg q4] at hdec
      by_cases q5 : e = 'r'
      · subst q5; decide
      rw [if_neg q5] at hdec
      by_cases q6 : e = 't'
      · subst q6; decide
      rw [if_neg q6] at hdec
      by_cases q7 : e = 'b'
      · subst q7; decide
      rw [if_neg q7] at hdec
      by_cases q8 : e = 'f'
      · subst q8; decide
      rw [if_neg q8] at hdec
      exact absurd hdec (by simp)

theorem goodStr_forall {s : String} (h : goodStrB s = true) :
    ∀ c ∈ s.data, goodChar c = true := by
  rw [goodStrB, List.all_eq_true] at h
  exact h

theorem quoteStr_good {s : String} (h : goodStrB s = true) :
    ∀ c ∈ (quoteStr s).data, goodChar c = true := by
  rw [quoteStr_data]
  intro c hc
  rcases List.mem_cons.mp hc with rfl | hc2
  · decide
  rcases List.mem_append.mp hc2 with h3 | h3
  · rcases List.mem_flatten.mp h3 with ⟨l, hl, hcl⟩
    rcases List.mem_map.mp hl with ⟨c0, hc0, rfl⟩
    exact escChar_good (goodStr_forall h c0 hc0) c hcl
  · simp only [List.mem_singleton] at h3
    subst h3
    decide

theorem digit_goodChar {c : Char} (h : c.isDigit = true) : goodChar c = true := by
  rw [goodChar]
  have h1 : c ≠ '\x7b' := isDigit_ne h (by decide)
  have h2 : c ≠ '\x7d' := isDigit_ne h (by decide)
  have h3 : c ≠ '`' := isDigit_ne h (by decide)
  simp [h1, h2, h3]

theorem natToString_good (n : Nat) : ∀ c ∈ (natToString n).data, goodChar c = true := by
  intro c hc
  by_cases h0 : n = 0
  · subst h0
    have : (natToString 0).data = ['0'] := rfl
    rw [this] at hc
    simp only [List.mem_singleton] at hc
    subst hc
    decide
  · have hd : (natToString n).data = natDigitsAux (n + 1) n := by
      simp only [natToString, if_neg h0]
    rw [hd] at hc
    exact digit_goodChar (natDigitsAux_all_digit _ _ c hc)

theorem intToString_good (n : Int) : ∀ c ∈ (intToString n).data, goodChar c = true := by
  intro c hc
  rw [intToString] at hc
  by_cases hs : n < 0
  · rw [if_pos hs] at hc
    rw [String.data_append] at hc
    rcases List.mem_append.mp hc with h | h
    · simp only [show ("-").data = ['-'] from rfl, List.mem_singleton] at h
      subst h
      decide
    · exact natToString_good _ c h
  · rw [if_neg hs] at hc
    exact natToString_good _ c hc

theorem indentStr_good (d : Nat) : ∀ c ∈ (indentStr d).data, goodChar c = true := by
  intro c hc
  have : (indentStr d).data = List.replicate (2 * d) ' ' := rfl
  rw [this] at hc
  rw [List.eq_of_mem_replicate hc]
  decide

theorem mem_string_append {c : Char} {a b : String} (h : c ∈ (a ++ b).data) :
    c ∈ a.data ∨ c ∈ b.data := by
  rw [String.data_append] at h
  exact List.mem_append.mp h

mutual

theorem stringify2_no_tick : ∀ (v : Json), goodJsonB v = true →
    ∀ (d : Nat), ∀ c ∈ (stringify2 d v).data, c ≠ '`'
  | .null, _, d => by
    intro c hc
    rw [stringify2] at hc
    rcases (by simpa using hc : c = 'n' ∨ c = 'u' ∨ c = 'l' ∨ c = 'l') with
      rfl | rfl | rfl | rfl <;> decide
  | .bool true, _, d => by
    intro c hc
    rw [stringify2] at hc
    rcases (by simpa using hc : c = 't' ∨ c = 'r' ∨ c = 'u' ∨ c = 'e') with
      rfl | rfl | rfl | rfl <;> decide
  | .bool false, _, d => by
    intro c hc
    rw [stringify2] at hc
    rcases (by simpa using hc : c = 'f' ∨ c = 'a' ∨ c = 'l' ∨ c = 's' ∨ c = 'e') with
      rfl | rfl | rfl | rfl | rfl <;> decide
  | .num n, _, d => by
    intro c hc
    rw [stringify2] at hc
    exact goodChar_ne_tick (intToString_good n c hc)
  | .str s, hg, d => by
    intro c hc
    rw [stringify2] at hc
    rw [goodJsonB] at hg
    exact goodChar_ne_tick (quoteStr_good hg c hc)
  | .arr [], _, d => by
    intro c hc
    rw [stringify2] at hc
    rcases (by simpa using hc : c = '[' ∨ c = ']') with rfl | rfl <;> decide
  | .arr (x :: xs), hg, d => by
    intro c hc
    rw [stringify2] at hc
    rw [goodJsonB] at hg
    rcases mem_string_append hc with h | h
    · rcases mem_string_append h with h | h
      · rcases mem_string_append h with h | h
        · rcases mem_string_append h with h | h
          · rcases (by simpa using h : c = '[' ∨ c = '\n') with rfl | rfl <;> decide
          · exact stringifyElems_no_tick (x :: xs) hg d c h
        · rcases (by simpa using h : c = '\n') with rfl
          decide
      · exact goodChar_ne_tick (indentStr_good d c h)
    · rcases (by simpa using h : c = ']') with rfl
      decide
  | .obj [], _, d => by
    intro c hc
    rw [stringify2] at hc
    rcases (by simpa using hc : c = '\x7b' ∨ c = '\x7d') with rfl | rfl <;> decide
  | .obj (m :: ms), hg, d => by
    intro c hc
    rw [stringify2] at hc
    rw [goodJsonB] at hg
    rcases mem_string_append hc with h | h
    · rcases mem_string_append h with h | h
      · rcases mem_string_append h with h | h
        · rcases mem_string_append h with h | h
          · rcases (by simpa using h : c = '\x7b' ∨ c = '\n') with rfl | rfl <;> decide
          · exact stringifyMembers_no_tick (m :: ms) hg d c h
        · rcases (by simpa using h : c = '\n') with rfl
          decide
      · exact goodChar_ne_tick (indentStr_good d c h)
    · rcases (by simpa using h : c = '\x7d') with rfl
      decide

theorem stringifyElems_no_tick : ∀ (xs : List Json), goodArrB xs = true →
    ∀ (d : Nat), ∀ c ∈ (stringifyElems d xs).data, c ≠ '`'
  | [], _, d => by
    intro c hc
    rw [stringifyElems] at hc
    simp at hc
  | [x], hg, d => by
    intro c hc
    rw [stringifyElems] at hc
    rw [goodArrB, Bool.and_eq_true] at hg
    rcases mem_string_append hc with h | h
    · exact goodChar_ne_tick (indentStr_good (d + 1) c h)
    · exact stringify2_no_tick x hg.1 (d + 1) c h
  | x :: y :: xs, hg, d => by
    intro c hc
    rw [stringifyElems] at hc
    rw [goodArrB, Bool.and_eq_true] at hg
    rcases mem_string_append hc with h | h
    · rcases mem_string_append h with h | h
      · rcases mem_string_append h with h | h
        · exact goodChar_ne_tick (indentStr_good (d + 1) c h)
        · exact stringify2_no_tick x hg.1 (d + 1) c h
      · rcases (by simpa using h : c = ',' ∨ c = '\n') with rfl | rfl <;> decide
    · exact stringifyElems_no_tick (y :: xs) hg.2 d c h

theorem stringifyMembers_no_tick : ∀ (ms : List (String × Json)),
    goodMembersB ms = true → ∀ (d : Nat), ∀ c ∈ (stringifyMembers d ms).data, c ≠ '`'
  | [], _, d => by
    intro c hc
    rw [stringifyMembers] at hc
    simp at hc
  | [(k, v)], hg, d => by
    intro c hc
    rw [stringifyMembers] at hc
    rw [goodMembersB, Bool.and_eq_true, Bool.and_eq_true] at hg
    rcases mem_string_append hc with h | h
    · rcases mem_string_append h with h | h
      · rcases mem_string_append h with h | h
        · exact goodChar_ne_tick (indentStr_good (d + 1) c h)
        · exact goodChar_ne_tick (quoteStr_good hg.1.1 c h)
      · rcases (by simpa using h : c = ':' ∨ c = ' ') with rfl | rfl <;> decide
    · exact stringify2_no_tick v hg.1.2 (d + 1) c h
  | (k, v) :: m :: ms, hg, d => by
    intro c hc
    rw [stringifyMembers] at hc
    rw [goodMembersB, Bool.and_eq_true, Bool.and_eq_true] at hg
    rcases mem_string_append hc with h | h
    · rcases mem_string_append h with h | h
      · rcases mem_string_append h with h | h
        · rcases mem_string_append h with h | h
          · rcases mem_string_append h with h | h
            · exact goodChar_ne_tick (indentStr_good (d + 1) c h)
            · exact goodChar_ne_tick (quoteStr_good hg.1.1 c h)
          · rcases (by simpa using h : c = ':' ∨ c = ' ') with rfl | rfl <;> decide
        · exact stringify2_no_tick v hg.1.2 (d + 1) c h
      · rcases (by simpa using h : c = ',' ∨ c = '\n') with rfl | rfl <;> decide
    · exact stringifyMembers_no_tick (m :: ms) hg.2 d c h

end

theorem spanGo_cons_neutral (c : Char) (h1 : c ≠ '\x7b') (h2 : c ≠ '\x7d')
    (d : Nat) (acc r : List Char) :
    spanGo d acc (c :: r) = spanGo d (acc ++ [c]) r := by
  rw [spanGo, if_neg h1, if_neg h2]

theorem spanGo_open (d : Nat) (acc r : List Char) :
    spanGo d acc ('\x7b' :: r) = spanGo (d + 1) (acc ++ ['\x7b']) r := by
  rw [spanGo, if_pos rfl]

theorem spanGo_close_deep {d : Nat} (h : d ≠ 1) (acc r : List Char) :
    spanGo d acc ('\x7d' :: r) = spanGo (d - 1) (acc ++ ['\x7d']) r := by
  rw [spanGo, if_neg (by decide), if_pos rfl, if_neg h]

theorem spanGo_close_done (acc r : List Char) :
    spanGo 1 acc ('\x7d' :: r) = some (acc ++ ['\x7d']) := by
  rw [spanGo, if_neg (by decide), if_pos rfl, if_pos rfl]

theorem spanGo_neutral : ∀ (m : List Char), (∀ c ∈ m, goodChar c = true) →
    ∀ (d : Nat) (acc r : List Char),
    spanGo d acc (m ++ r) = spanGo d (acc ++ m) r
  | [], _, d, acc, r => by simp
  | c :: m, h, d, acc, r => by
    have hc := goodChar_ne_braces (h c (List.mem_cons_self c m))
    rw [List.cons_append, spanGo_cons_neutral c hc.1 hc.2,
      spanGo_neutral m (fun x hx => h x (List.mem_cons_of_mem c hx)) d (acc ++ [c]) r]
    simp

mutual

theorem spanGo_stringify2 : ∀ (v : Json), goodJsonB v = true → ∀ (k d : Nat),
    1 ≤ d → ∀ (acc r : List Char),
    spanGo d acc ((stringify2 k v).data ++ r) =
      spanGo d (acc ++ (stringify2 k v).data) r
  | .null, _, k, d, _, acc, r => by
    rw [stringify2]
    exact spanGo_neutral _ (by decide) d acc r
  | .bool true, _, k, d, _, acc, r => by
    rw [stringify2]
    exact spanGo_neutral _ (by decide) d acc r
  | .bool false, _, k, d, _, acc, r => by
    rw [stringify2]
    exact spanGo_neutral _ (by decide) d acc r
  | .num n, _, k, d, _, acc, r => by
    rw [stringify2]
    exact spanGo_neutral _ (intToString_good n) d acc r
  | .str s, hg, k, d, _, acc, r => by
    rw [goodJsonB] at hg
    rw [stringify2]
    exact spanGo_neutral _ (quoteStr_good hg) d acc r
  | .arr [], _, k, d, _, acc, r => by
    rw [stringify2]
    exact spanGo_neutral _ (by decide) d acc r
  | .arr (x :: xs), hg, k, d, hd, acc, r => by
    rw [goodJsonB] at hg
    rw [stringify2]
    have h1 : ("[\n" : String).data = ['[', '\n'] := rfl
    have h2 : ("\n" : String).data = ['\n'] := rfl
    have h3 : ("]" : String).data = [']'] := rfl
    simp only [String.data_append, h1, h2, h3, List.append_assoc,
      List.cons_append, List.nil_append]
    rw [spanGo_cons_neutral '[' (by decide) (by decide),
      spanGo_cons_neutral '\n' (by decide) (by decide),
      spanGo_stringifyElems (x :: xs) hg k d hd _ _,
      spanGo_cons_neutral '\n' (by decide) (by decide),
      spanGo_neutral (indentStr k).data (indentStr_good k) d _ _,
      spanGo_cons_neutral ']' (by decide) (by decide)]
    simp [List.append_assoc]
  | .obj [], _, k, d, hd, acc, r => by
    rw [stringify2]
    have h1 : ("\x7b\x7d" : String).data = ['\x7b', '\x7d'] := rfl
    simp only [h1, List.cons_append, List.nil_append]
    rw [spanGo_open, spanGo_close_deep (by omega)]
    simp
  | .obj (m :: ms), hg, k, d, hd, acc, r => by
    rw [goodJsonB] at hg
    rw [stringify2]
    have h1 : ("\x7b\n" : String).data = ['\x7b', '\n'] := rfl
    have h2 : ("\n" : String).data = ['\n'] := rfl
    have h3 : ("\x7d" : String).data = ['\x7d'] := rfl
    simp only [String.data_append, h1, h2, h3, List.append_assoc,
      List.cons_append, List.nil_append]
    rw [spanGo_open,
      spanGo_cons_neutral '\n' (by decide) (by decide),
      spanGo_stringifyMembers (m :: ms) hg k (d + 1) (by omega) _ _,
      spanGo_cons_neutral '\n' (by decide) (by decide),
      spanGo_neutral (indentStr k).data (indentStr_good k) (d + 1) _ _,
      spanGo_close_deep (by omega)]
    simp [List.append_assoc]

theorem spanGo_stringifyElems : ∀ (xs : List Json), goodArrB xs = true →
    ∀ (k d : Nat), 1 ≤ d → ∀ (acc r : List Char),
    spanGo d acc ((stringifyElems k xs).data ++ r) =
      spanGo d (acc ++ (stringifyElems k xs).data) r
  | [], _, k, d, _, acc, r => by
    rw [stringifyElems]
    exact spanGo_neutral _ (by decide) d acc r
  | [x], hg, k, d, hd, acc, r => by
    rw [goodArrB, Bool.and_eq_true] at hg
    rw [stringifyElems]
    simp only [String.data_append, List.append_assoc]
    rw [spanGo_neutral (indentStr (k + 1)).data (indentStr_good (k + 1)) d _ _,
      spanGo_stringify2 x hg.1 (k + 1) d hd _ _]
    simp [List.append_assoc]
  | x :: y :: xs, hg, k, d, hd, acc, r => by
    rw [goodArrB, Bool.and_eq_true] at hg
    rw [stringifyElems]
    have h1 : (",\n" : String).data = [',', '\n'] := rfl
    simp only [String.data_append, h1, List.append_assoc,
      List.cons_append, List.nil_append]
    rw [spanGo_neutral (indentStr (k + 1)).data (indentStr_good (k + 1)) d _ _,
      spanGo_stringify2 x hg.1 (k + 1) d hd _ _,
      spanGo_cons_neutral ',' (by decide) (by decide),
      spanGo_cons_neutral '\n' (by decide) (by decide),
      spanGo_stringifyElems (y :: xs) hg.2 k d hd _ _]
    simp [List.append_assoc]

theorem spanGo_stringifyMembers : ∀ (ms : List (String × Json)),
    goodMembersB ms = true → ∀ (k d : Nat), 1 ≤ d → ∀ (acc r : List Char),
    spanGo d acc ((stringifyMembers k ms).data ++ r) =
      spanGo d (acc ++ (stringifyMembers k ms).data) r
  | [], _, k, d, _, acc, r => by
    rw [stringifyMembers]
    exact spanGo_neutral _ (by decide) d acc r
  | [(key, v)], hg, k, d, hd, acc, r => by
    rw [goodMembersB, Bool.and_eq_true, Bool.and_eq_true] at hg
    rw [stringifyMembers]
    have h1 : (": " : String).data = [':', ' '] := rfl
    simp only [String.data_append, h1, List.append_assoc,
      List.cons_append, List.nil_append]
    rw [spanGo_neutral (indentStr (k + 1)).data (indentStr_good (k + 1)) d _ _,
      spanGo_neutral (quoteStr key).data (quoteStr_good hg.1.1) d _ _,
      spanGo_cons_neutral ':' (by decide) (by decide),
      spanGo_cons_neutral ' ' (by decide) (by decide),
      spanGo_stringify2 v hg.1.2 (k + 1) d hd _ _]
    simp [List.append_assoc]
  | (key, v) :: m :: ms, hg, k, d, hd, acc, r => by
    rw [goodMembersB, Bool.and_eq_true, Bool.and_eq_true] at hg
    rw [stringifyMembers]
    have h1 : (": " : String).data = [':', ' '] := rfl
    have h2 : (",\n" : String).data = [',', '\n'] := rfl
    simp only [String.data_append, h1, h2, List.append_assoc,
      List.cons_append, List.nil_append]
    rw [spanGo_neutral (indentStr (k + 1)).data (indentStr_good (k + 1)) d _ _,
      spanGo_neutral (quoteStr key).data (quoteStr_good hg.1.1) d _ _,
      spanGo_cons_neutral ':' (by decide) (by decide),
      spanGo_cons_neutral ' ' (by decide) (by decide),
      spanGo_stringify2 v hg.1.2 (k + 1) d hd _ _,
      spanGo_cons_neutral ',' (by decide) (by decide),
      spanGo_cons_neutral '\n' (by decide) (by decide),
      spanGo_stringifyMembers (m :: ms) hg.2 k d hd _ _]
    simp [List.append_assoc]

end

theorem matchFenceAt_no_tick : ∀ (l : List Char), (∀ c ∈ l, c ≠ '`') →
    matchFenceAt l = none
  | [], _ => by rw [matchFenceAt, if_neg (by decide)]
  | c :: t, h => by
    have hc := h c (List.mem_cons_self c t)
    rw [matchFenceAt, if_neg]
    intro hp
    rw [List.isPrefixOf_iff_prefix] at hp
    obtain ⟨s, hs⟩ := hp
    simp only [List.cons_append, List.cons.injEq] at hs
    exact hc hs.1.symm

theorem findCodeBlock_no_tick : ∀ (l : List Char), (∀ c ∈ l, c ≠ '`') →
    findCodeBlock l = none
  | [], _ => rfl
  | c :: t, h => by
    rw [findCodeBlock, matchFenceAt_no_tick (c :: t) h,
      findCodeBlock_no_tick t (fun x hx => h x (List.mem_cons_of_mem c hx))]

/-- The inner `{name, arguments}` object embedded for a function call. -/
def innerObj (name : String) (args : List (String × Json)) : Json :=
  Json.obj [("name", Json.str name), ("arguments", Json.obj args)]

/-- The `{"tool_call": {...}}` wrapper object the converter serializes. -/
def callObj (name : String) (args : List (String × Json)) : Json :=
  Json.obj [("tool_call", innerObj name args)]

set_option maxRecDepth 10000

/-- C2: round trip of the converter and the extractor.  For a `functionCall`
part whose name is declared, non-empty and brace- and backtick-free, and
whose argument strings (keys and values, recursively) are brace- and
backtick-free, flattening the part with `partsToText` and extracting with
`parseToolCall` against the same declared tools returns the same name and
the same argument mapping.  The braces condition is necessary: see the
counterexample below. -/
theorem roundtrip_functionCall_extract
    (name : String) (args : List (String × Json)) (t : Tool) (ts : List Tool)
    (fds : List FunctionDeclaration)
    (hfd : t.functionDeclarations = some fds)
    (hmem : some name ∈ fds.map (fun d => d.name))
    (hne : name ≠ "")
    (hname : goodStrB name = true)
    (hargs : goodMembersB args = true) :
    parseToolCall (partsToText [Part.functionCall ⟨Json.str name, Json.obj args⟩])
      (some (t :: ts)) = some ⟨Json.str name, Json.obj args⟩ := by
  have hinner : goodJsonB (innerObj name args) = true := by
    rw [innerObj]
    simp only [goodJsonB, goodMembersB, Bool.and_eq_true, and_true]
    exact ⟨⟨by decide, hname⟩, by decide, hargs⟩
  have hP : (stringify2 0 (callObj name args)).data =
      '\x7b' :: '\n' :: ' ' :: ' ' :: '"' :: 't' :: 'o' :: 'o' :: 'l' :: '_' ::
      'c' :: 'a' :: 'l' :: 'l' :: '"' :: ':' :: ' ' ::
      ((stringify2 1 (innerObj name args)).data ++ ['\n', '\x7d']) := by
    rw [callObj, stringify2, stringifyMembers]
    have e1 : ("\x7b\n" : String).data = ['\x7b', '\n'] := rfl
    have e2 : (indentStr 1).data = [' ', ' '] := rfl
    have e3 : (quoteStr "tool_call").data =
      ['"', 't', 'o', 'o', 'l', '_', 'c', 'a', 'l', 'l', '"'] := rfl
    have e4 : (": " : String).data = [':', ' '] := rfl
    have e5 : ("\n" : String).data = ['\n'] := rfl
    have e6 : (indentStr 0).data = [] := rfl
    have e7 : ("\x7d" : String).data = ['\x7d'] := rfl
    simp only [String.data_append, e1, e2, e3, e4, e5, e6, e7,
      List.append_assoc, List.cons_append, List.nil_append]
  have hT : partsToText [Part.functionCall ⟨Json.str name, Json.obj args⟩] =
      "\n" ++ stringify2 0 (callObj name args) ++ "\n" := rfl
  have hTfull : (partsToText [Part.functionCall
        ⟨Json.str name, Json.obj args⟩]).data =
      '\n' :: '\x7b' :: '\n' :: ' ' :: ' ' :: '"' :: 't' :: 'o' :: 'o' :: 'l' ::
      '_' :: 'c' :: 'a' :: 'l' :: 'l' :: '"' :: ':' :: ' ' ::
      ((stringify2 1 (innerObj name args)).data ++ ['\n', '\x7d', '\n']) := by
    rw [hT]
    have e5 : ("\n" : String).data = ['\n'] := rfl
    simp only [String.data_append, e5, List.cons_append, List.nil_append,
      List.append_assoc, hP]
  have hnot : ∀ c ∈ (partsToText [Part.functionCall
      ⟨Json.str name, Json.obj args⟩]).data, c ≠ '`' := by
    rw [hTfull]
    intro c hc
    simp only [List.mem_cons] at hc
    rcases hc with rfl|rfl|rfl|rfl|rfl|rfl|rfl|rfl|rfl|rfl|rfl|rfl|rfl|rfl|rfl|rfl|rfl|rfl|hc
    any_goals decide
    rcases List.mem_append.mp hc with h | h
    · exact stringify2_no_tick (innerObj name args) hinner 1 c h
    · simp only [List.mem_cons, List.not_mem_nil, or_false] at h
      rcases h with rfl | rfl | rfl
      any_goals decide
  have hA : findCodeBlock (partsToText [Part.functionCall
      ⟨Json.str name, Json.obj args⟩]).data = none :=
    findCodeBlock_no_tick _ hnot
  have hB : indexOfSub ("\"tool_call\"").data (partsToText [Part.functionCall
      ⟨Json.str name, Json.obj args⟩]).data = some 5 := by
    rw [hTfull]
    rfl
  have hC : lastIndexOfBrace (partsToText [Part.functionCall
      ⟨Json.str name, Json.obj args⟩]).data 5 = some 1 := by
    rw [hTfull]
    rfl
  have hD : braceSpan ((partsToText [Part.functionCall
      ⟨Json.str name, Json.obj args⟩]).data.drop 1) =
      some (stringify2 0 (callObj name args)).data := by
    rw [hTfull]
    show braceSpan ('\x7b' :: '\n' :: ' ' :: ' ' :: '"' :: 't' :: 'o' :: 'o' ::
      'l' :: '_' :: 'c' :: 'a' :: 'l' :: 'l' :: '"' :: ':' :: ' ' ::
      ((stringify2 1 (innerObj name args)).data ++ ['\n', '\x7d', '\n'])) =
      some (stringify2 0 (callObj name args)).data
    rw [braceSpan, spanGo_open]
    simp only [Nat.zero_add, List.nil_append]
    rw [spanGo_cons_neutral '\n' (by decide) (by decide),
      spanGo_cons_neutral ' ' (by decide) (by decide),
      spanGo_cons_neutral ' ' (by decide) (by decide),
      spanGo_cons_neutral '"' (by decide) (by decide),
      spanGo_cons_neutral 't' (by decide) (by decide),
      spanGo_cons_neutral 'o' (by decide) (by decide),
      spanGo_cons_neutral 'o' (by decide) (by decide),
      spanGo_cons_neutral 'l' (by decide) (by decide),
      spanGo_cons_neutral '_' (by decide) (by decide),
      spanGo_cons_neutral 'c' (by decide) (by decide),
      spanGo_cons_neutral 'a' (by decide) (by decide),
      spanGo_cons_neutral 'l' (by decide) (by decide),
      spanGo_cons_neutral 'l' (by decide) (by decide),
      spanGo_cons_neutral '"' (by decide) (by decide),
      spanGo_cons_neutral ':' (by decide) (by decide),
      spanGo_cons_neutral ' ' (by decide) (by decide),
      spanGo_stringify2 (innerObj name args) hinner 1 1 (by decide) _ _,
      spanGo_cons_neutral '\n' (by decide) (by decide),
      spanGo_close_done]
    rw [hP]
    simp [List.append_assoc]
  have hE : extractJsonText (partsToText [Part.functionCall
      ⟨Json.str name, Json.obj args⟩]) = some (stringify2 0 (callObj name args)) := by
    rw [extractJsonText, hA]
    dsimp only
    rw [hB]
    dsimp only
    rw [hC]
    dsimp only
    rw [hD]
  have hF : parseJson (stringify2 0 (callObj name args)) = some (callObj name args) :=
    parseJson_stringify2 0 (callObj name args)
  have hj1 : jsProp (callObj name args) "tool_call" = some (innerObj name args) := rfl
  have ht1 : jsTruthy (innerObj name args) = true := rfl
  have hj2 : jsProp (innerObj name args) "name" = some (Json.str name) := rfl
  have ht2 : jsTruthy (Json.str name) = true := by
    simp [jsTruthy, hne]
  have hj3 : jsProp (innerObj name args) "arguments" = some (Json.obj args) := rfl
  have ht3 : jsTruthy (Json.obj args) = true := rfl
  have hG : rawToolCall (partsToText [Part.functionCall
      ⟨Json.str name, Json.obj args⟩]) = some ⟨Json.str name, Json.obj args⟩ := by
    simp only [rawToolCall, hE, hF, hj1, ht1, if_true, hj2, ht2, hj3, ht3]
  have hAllowed : nameAllowed (some (t :: ts)) (Json.str name) = true := by
    rw [nameAllowed, hfd]
    simpa using hmem
  simp only [parseToolCall, hG, hAllowed, if_true]

/-- C2 counterexample: a declared tool call whose argument value contains a
brace character round-trips to `none`: the balanced-brace scan counts the
brace inside the string literal and extracts a span that is not valid JSON.
This refutes the unconditional round-trip claim. -/
theorem roundtrip_brace_counterexample :
    parseToolCall (partsToText [Part.functionCall
      ⟨Json.str "list_files", Json.obj [("a", Json.str "\x7b")]⟩])
      (some [toolListFiles]) = none := by
  rfl

/-- C2 witness: the round trip at a concrete declared call. -/
theorem roundtrip_functionCall_extract_witness :
    parseToolCall (partsToText [Part.functionCall
      ⟨Json.str "list_files", Json.obj [("dir", Json.str ".")]⟩])
      (some [toolListFiles]) =
      some ⟨Json.str "list_files", Json.obj [("dir", Json.str ".")]⟩ :=
  roundtrip_functionCall_extract "list_files" [("dir", Json.str ".")]
    toolListFiles [] [⟨some "list_files", some "List files in a directory", none⟩]
    rfl (by decide) (by decide) (by decide) (by decide)

end Chadson
